import Mathlib

/-! CS201 compiler passes: liveness analysis and local value numbering

A shallow embedding of the two LLVM function passes of the repository:

* `proj_3/HelloWorld.cpp` : liveness analysis (UEVAR / VARKILL / LIVEOUT),
  namespace `Liveness`;
* `proj_2/HelloWorld.cpp` : local value numbering, namespace `ValueNumbering`.

The LLVM IR objects the passes read are modelled in namespace `IR`.
A `Value*` is an address, modelled as a natural number; `std::set<Value*>` is a
`Finset Value`; a `std::map<K, V>` read through `operator[]` is a total function
returning the default-constructed `V` on absent keys.
-/

namespace IR

/-- An LLVM `Value*`: an opaque identity, compared by address. -/
abbrev Value := Nat

/-- The opcodes for which `Instruction::isBinaryOp()` holds in LLVM. -/
inductive BinaryOps
  | Add | FAdd | Sub | FSub | Mul | FMul | UDiv | SDiv | FDiv
  | URem | SRem | FRem | Shl | LShr | AShr | And | Or | Xor
  deriving DecidableEq, Repr

/-- An instruction as the passes see it: its own address (an instruction is a
`Value`), its opcode class and the operands the passes read with `getOperand`.
`Load` has one operand, `Store` and the binary operators two; every other
opcode is `Other`. -/
inductive Instruction
  | Load (self op0 : Value)
  | Store (self op0 op1 : Value)
  | BinaryOp (self : Value) (opcode : BinaryOps) (op0 op1 : Value)
  | Other (self : Value)
  deriving DecidableEq, Repr

/-- The address of an instruction, what `&inst` is in the source. -/
def Instruction.self : Instruction → Value
  | .Load self _ => self
  | .Store self _ _ => self
  | .BinaryOp self _ _ _ => self
  | .Other self => self

/-- The LLVM `Instruction::isBinaryOp()`. -/
def Instruction.isBinaryOp : Instruction → Bool
  | .BinaryOp _ _ _ _ => true
  | _ => false

/-- A basic block: its address, its instructions in order and the addresses of
its successor blocks in the order `successors(&basic_block)` yields them. -/
structure BasicBlock where
  addr : Value
  insts : List Instruction
  succs : List Value
  deriving DecidableEq, Repr

/-- An `llvm::Function` as iterated by `for (auto &basic_block : fn)`. -/
abbrev Function := List BasicBlock

/-- Distinct blocks of a function are distinct objects: no two list entries
share an address. -/
def DistinctBlocks (fn : Function) : Prop := (fn.map BasicBlock.addr).Nodup

instance (fn : Function) : Decidable (DistinctBlocks fn) := by
  unfold DistinctBlocks; infer_instance

end IR

namespace Liveness

open IR

/-- Source `setUnion` (proj_3, lines 13-17): a copy of `lhs` with every element
of `rhs` inserted. -/
def setUnion (lhs rhs : Finset Value) : Finset Value := lhs ∪ rhs

/-- Source `setDiff` (proj_3, lines 19-25): a copy of `lhs` with every element
of `rhs` erased. -/
def setDiff (lhs rhs : Finset Value) : Finset Value := lhs \ rhs

/-- The two block-local sets of pass 1 (lines 42-43). -/
structure BlockSets where
  varKillSet : Finset Value
  ueVarSet : Finset Value
  deriving DecidableEq

/-- Body of the instruction loop of pass 1 (lines 45-70). -/
def scanInst (acc : BlockSets) : Instruction → BlockSets
  | .Load _ ueVar =>
      if ueVar ∉ acc.varKillSet then { acc with ueVarSet := insert ueVar acc.ueVarSet } else acc
  | .Store _ _ varKill => { acc with varKillSet := insert varKill acc.varKillSet }
  | .BinaryOp _ _ _ _ => acc
  | .Other _ => acc

/-- The instruction loop of pass 1 over one block, from two empty sets. -/
def scanBlock (insts : List Instruction) : BlockSets :=
  insts.foldl scanInst ⟨∅, ∅⟩

/-- The three maps of `visitor` (lines 29-31), keyed by block address. -/
structure Maps where
  liveOutMap : Value → Finset Value
  varKillMap : Value → Finset Value
  ueVarMap : Value → Finset Value

/-- The three maps as declared: all empty. -/
def Maps.empty : Maps := ⟨fun _ => ∅, fun _ => ∅, fun _ => ∅⟩

/-- Body of the block loop of pass 1 (lines 37-75): scan the block, then store
its two sets and an empty LIVEOUT under the block address. -/
def pass1Block (m : Maps) (bb : BasicBlock) : Maps :=
  let s := scanBlock bb.insts
  { liveOutMap := Function.update m.liveOutMap bb.addr ∅
    varKillMap := Function.update m.varKillMap bb.addr s.varKillSet
    ueVarMap := Function.update m.ueVarMap bb.addr s.ueVarSet }

/-- Pass 1 (lines 36-75). -/
def pass1 (fn : Function) : Maps := fn.foldl pass1Block Maps.empty

/-- The successor loop of pass 2 (lines 83-91): the new LIVEOUT set of a block
with successor list `succs`, read from the current maps. -/
def liveOutOf (m : Maps) (succs : List Value) : Finset Value :=
  succs.foldl
    (fun liveOutSet succ =>
      setUnion liveOutSet
        (setUnion (setDiff (m.liveOutMap succ) (m.varKillMap succ)) (m.ueVarMap succ)))
    ∅

/-- Body of the block loop of pass 2 (lines 82-96), on the maps and the
`continueIter` flag. -/
def passStep (acc : Maps × Bool) (bb : BasicBlock) : Maps × Bool :=
  let liveOutSet := liveOutOf acc.1 bb.succs
  if acc.1.liveOutMap bb.addr ≠ liveOutSet then
    ({ acc.1 with liveOutMap := Function.update acc.1.liveOutMap bb.addr liveOutSet }, true)
  else acc

/-- One iteration of the `while` body (lines 80-96): `continueIter = false`,
then the in-place pass over all blocks. -/
def onePass (fn : Function) (m : Maps) : Maps × Bool :=
  fn.foldl passStep (m, false)

/-- The `while (continueIter)` loop (lines 78-97) with a bound on the number of
passes; `none` when the bound is reached before a pass leaves every set alone. -/
def whileLoop (fn : Function) : Nat → Maps → Option Maps
  | 0, _ => none
  | fuel + 1, m =>
      let r := onePass fn m
      if r.2 then whileLoop fn fuel r.1 else some r.1

/-- The analysis of `visitor` (lines 27-97): pass 1, then the LIVEOUT loop. -/
def visitor (fuel : Nat) (fn : Function) : Option Maps :=
  whileLoop fn fuel (pass1 fn)

/-- The LIVEOUT loop alone, on given VARKILL/UEVAR maps and all-empty LIVEOUT. -/
def liveOutLoop (fuel : Nat) (fn : Function) (varKillMap ueVarMap : Value → Finset Value) :
    Option Maps :=
  whileLoop fn fuel ⟨fun _ => ∅, varKillMap, ueVarMap⟩

/-! ### Notions in which the properties of the analysis are stated

The definitions from here to the end of the namespace are not code of the
pass: they name the graph, the size measures and the example functions that
the theorems below talk about. -/

/-- The relation a family of sets `G` must satisfy to contain every LIVEOUT set
the loop can build: it is closed under the transfer function along the edges. -/
def Closed (fn : Function) (vk ue : Value → Finset Value) (G : Value → Value → Prop) : Prop :=
  ∀ b ∈ fn, ∀ s ∈ b.succs, ∀ v, ((G s v ∧ v ∉ vk s) ∨ v ∈ ue s) → G b.addr v

/-- Every block's current LIVEOUT set is contained in the set the pass would
recompute for it: the sets can only grow. -/
def PostFix (fn : Function) (m : Maps) : Prop :=
  ∀ b ∈ fn, m.liveOutMap b.addr ⊆ liveOutOf m b.succs

/-- The variables that can ever enter a LIVEOUT set: the UEVAR sets of the
successors of the blocks of the function. -/
def ueUniverse (fn : Function) (ueVarMap : Value → Finset Value) : Finset Value :=
  fn.toFinset.biUnion (fun b => b.succs.toFinset.biUnion ueVarMap)

/-- The total size of the LIVEOUT sets of the blocks of the function. -/
def weight (fn : Function) (m : Maps) : Nat :=
  (fn.map BasicBlock.addr).toFinset.sum (fun x => (m.liveOutMap x).card)

/-- A number of passes after which the loop has stopped: one more than the
number of blocks times the number of variables that can become live. -/
def passBound (fn : Function) (ueVarMap : Value → Finset Value) : Nat :=
  fn.length * (ueUniverse fn ueVarMap).card + 1

/-- The successor edges of the control-flow graph, between block addresses. -/
def Edge (fn : Function) (x y : Value) : Prop := ∃ b ∈ fn, b.addr = x ∧ y ∈ b.succs

/-- The loop of `visitor` on `fn` exits holding the maps `L`: every bound on the
number of passes from `passBound` on lets it run to its exit, with result `L`. -/
def Yields (fn : Function) (L : Maps) : Prop :=
  ∀ fuel, passBound fn (pass1 fn).ueVarMap ≤ fuel → visitor fuel fn = some L

/-- The LIVEOUT loop on given VARKILL/UEVAR maps, enumerating the blocks in the
order of `fn`, exits holding the maps `L`. -/
def LoopYields (fn : Function) (vk ue : Value → Finset Value) (L : Maps) : Prop :=
  ∀ fuel, passBound fn ue ≤ fuel → liveOutLoop fuel fn vk ue = some L

/-- A use of `v` reachable from block `x`: a non-empty path of successor edges
`x -> s1 -> ... -> sk` with `v` in `UEVAR(sk)` and `v` outside `VARKILL(si)` for
every `i < k`. -/
def LivePath (fn : Function) (vk ue : Value → Finset Value) (v x : Value) : Prop :=
  ∃ (path : List Value) (sk : Value), path.getLast? = some sk ∧
    List.Chain (Edge fn) x path ∧ v ∈ ue sk ∧ ∀ s ∈ path.dropLast, v ∉ vk s

/-- The destination of a `Store`, the value it kills; nothing for any other
instruction. -/
def storeDest : Instruction → Option Value
  | .Store _ _ op1 => some op1
  | _ => none

/-- Scenario B of the specification: `B1 -> B2`, `B1` stores into `p`, `B2`
loads `p`. Here `p = 1`, the stored value is `9`, the blocks live at `100`
and `101`. -/
def scenarioB1 : BasicBlock := ⟨100, [.Store 6 9 1], [101]⟩

/-- The second block of Scenario B. -/
def scenarioB2 : BasicBlock := ⟨101, [.Load 5 1], []⟩

/-- A loop `100 -> 101 -> 100` with an exit `101 -> 102`: block `100` loads
variable `1` and stores into `2`, block `101` adds, block `102` loads `2`. -/
def loopFn : Function :=
  [⟨100, [.Load 5 1, .Store 6 5 2], [101]⟩,
   ⟨101, [.BinaryOp 7 .Add 5 5], [100, 102]⟩,
   ⟨102, [.Load 8 2], []⟩]

end Liveness

namespace ValueNumbering

open IR

/-- The three globals of proj_2 (lines 11-13): `operandTable`, `exprTable` and
the counter `valueNum`. A C++ `int` is modelled as an unbounded `Int`: the
counter only moves by `valueNum++`, whose overflow is undefined in C++. The
model therefore agrees with the code as long as the counter incremented is
below `INT_MAX`; what `valueNum++` leaves in the counter at `INT_MAX` is not
modelled. -/
structure State where
  operandTable : Value → Option Int
  exprTable : String → Option Int
  valueNum : Int

/-- The largest value of a 32-bit C++ `int`. -/
def INT_MAX : Int := 2147483647

/-- The globals as initialised at program start: empty tables, counter 1. -/
def State.fresh : State := ⟨fun _ => none, fun _ => none, 1⟩

/-- The default argument `val = -1` of `updateOperandTable`. -/
def noVal : Int := -1

/-- Source `updateOperandTable` (proj_2, lines 15-41). The result is the
returned number, the out-parameter `exists` and the globals after the call. -/
def updateOperandTable (st : State) (operand : Value) (val : Int) : (Int × Bool) × State :=
  match st.operandTable operand with
  | some old =>
      if val > 0 then
        ((val, true), { st with operandTable := Function.update st.operandTable operand (some val) })
      else ((old, true), st)
  | none =>
      if val > 0 then
        ((val, false), { st with operandTable := Function.update st.operandTable operand (some val) })
      else
        ((st.valueNum, false),
          { st with
            operandTable := Function.update st.operandTable operand (some st.valueNum)
            valueNum := st.valueNum + 1 })

/-- Source `updateExprTable` (proj_2, lines 43-57), with the same result shape. -/
def updateExprTable (st : State) (expr : String) : (Int × Bool) × State :=
  match st.exprTable expr with
  | some old => ((old, true), st)
  | none =>
      ((st.valueNum, false),
        { st with
          exprTable := Function.update st.exprTable expr (some st.valueNum)
          valueNum := st.valueNum + 1 })

/-- The `switch` of lines 88-105: the mnemonic of the five handled operators;
`op` stays the empty string for every other binary operator. -/
def opString : BinaryOps → String
  | .Add => "add"
  | .Sub => "sub"
  | .Mul => "mul"
  | .UDiv => "udiv"
  | .SDiv => "sdiv"
  | _ => ""

/-- The C++ `std::to_string(int)`: decimal digits, with a leading minus sign
for a negative number. -/
def to_string (n : Int) : String := toString n

/-- The canonical expression string of line 108. -/
def exprString (lhsValueNum : Int) (op : String) (rhsValueNum : Int) : String :=
  to_string lhsValueNum ++ " " ++ op ++ " " ++ to_string rhsValueNum

/-- One line of the report: the instruction printed, the number before `" = "`,
the text after it, and whether `" (redundant)"` is appended. -/
structure Record where
  inst : Instruction
  dstValueNum : Int
  sourceOrExpr : String
  redundant : Bool
  deriving DecidableEq, Repr

/-- Lines 106-107: the two operand lookups of a binary operator, left before
right. The result is `(lhsValueNum, rhsValueNum)` and the globals afterwards. -/
def operandNums (st : State) (op0 op1 : Value) : (Int × Int) × State :=
  let l := updateOperandTable st op0 noVal
  let r := updateOperandTable l.2 op1 noVal
  ((l.1.1, r.1.1), r.2)

/-- Body of the instruction loop of `visitor` (proj_2, lines 66-120): the
globals afterwards and the record emitted, if any. -/
def visitInst (st : State) (inst : Instruction) : State × List Record :=
  match inst with
  | .Load _ op0 =>
      let src := updateOperandTable st op0 noVal
      let dst := updateOperandTable src.2 inst.self src.1.1
      (dst.2, [⟨inst, dst.1.1, to_string src.1.1, false⟩])
  | .Store _ op0 op1 =>
      let src := updateOperandTable st op0 noVal
      let dst := updateOperandTable src.2 op1 src.1.1
      (dst.2, [⟨inst, dst.1.1, to_string src.1.1, false⟩])
  | .BinaryOp _ opcode op0 op1 =>
      let op := opString opcode
      let nums := operandNums st op0 op1
      let expr := exprString nums.1.1 op nums.1.2
      let dst := updateExprTable nums.2 expr
      let fin := updateOperandTable dst.2 inst.self dst.1.1
      (fin.2, [⟨inst, dst.1.1, expr, dst.1.2⟩])
  | .Other _ => (st, [])

/-- The instruction loop over a list of instructions, collecting the records. -/
def visitInsts (acc : State × List Record) (insts : List Instruction) : State × List Record :=
  insts.foldl (fun a inst => ((visitInst a.1 inst).1, a.2 ++ (visitInst a.1 inst).2)) acc

/-- Source `visitor` (proj_2, lines 59-122), run on the globals `st`: the
globals afterwards and the records in the order printed. -/
def visitor (st : State) (fn : Function) : State × List Record :=
  fn.foldl (fun a bb => visitInsts a bb.insts) (st, [])

/-! ### Notions in which the properties of the numbering are stated

The definitions from here to the end of the namespace are not code of the
pass: they name the calls, the runs and the example inputs that the theorems
below talk about. -/

/-- One call of a table function: `updateOperandTable(operand, exists)`,
`updateOperandTable(operand, exists, val)` or `updateExprTable(e, exists)`. -/
inductive Call
  | lookup (operand : Value)
  | assign (operand : Value) (val : Int)
  | expr (e : String)
  deriving DecidableEq

/-- The globals after a call. -/
def Call.run (st : State) : Call → State
  | .lookup operand => (updateOperandTable st operand noVal).2
  | .assign operand val => (updateOperandTable st operand val).2
  | .expr e => (updateExprTable st e).2

/-- The globals after the instructions `insts` have been processed, in this
order, from the fresh state. -/
def stateAfter (insts : List Instruction) : State :=
  (visitInsts (State.fresh, []) insts).1

/-- The numbering invariant: the counter is at least 1, every number stored in
either table lies between 1 and the counter (excluded), and no two expression
strings share a number. -/
structure Numbered (st : State) : Prop where
  counter_pos : 1 ≤ st.valueNum
  operand_range : ∀ v n, st.operandTable v = some n → 1 ≤ n ∧ n < st.valueNum
  expr_range : ∀ e n, st.exprTable e = some n → 1 ≤ n ∧ n < st.valueNum
  expr_inj : ∀ e1 e2 n, st.exprTable e1 = some n → st.exprTable e2 = some n → e1 = e2

/-- Every expression string in the table was put there by a binary operator
whose record is in the report so far, and every such record has its string in
the table. -/
def ExprHist (acc : State × List Record) : Prop :=
  ∀ e, (acc.1.exprTable e).isSome = true ↔
    ∃ r ∈ acc.2, r.inst.isBinaryOp = true ∧ r.sourceOrExpr = e

/-- A function of one block holding `x = load a`. -/
def loadFnF : Function := [⟨100, [.Load 11 10], []⟩]

/-- Another function of one block holding `u = load b`, on values of its own. -/
def loadFnG : Function := [⟨200, [.Load 21 20], []⟩]

/-- A function of two blocks, `100 -> 101`, each holding one `add` of the same
two operands `10` and `11`. -/
def crossBlockFn : Function :=
  [⟨100, [.BinaryOp 12 .Add 10 11], [101]⟩, ⟨101, [.BinaryOp 13 .Add 10 11], []⟩]

/-- The five binary operators the `switch` of lines 89-105 names. -/
def handled : BinaryOps → Bool
  | .Add | .Sub | .Mul | .UDiv | .SDiv => true
  | _ => false

/-- The value of a decimal digit character. -/
def digitVal (c : Char) : Nat := c.toNat - 48

/-- Reading a list of decimal digits, most significant first, onto `acc`. -/
def decode (acc : Nat) (cs : List Char) : Nat :=
  cs.foldl (fun a c => 10 * a + digitVal c) acc

/-- The string `e` was produced by a binary operator of the run `pre`: it is
the canonical string of the operand numbers looked up when that operator was
processed. -/
def ExprOrigin (pre : List Instruction) (e : String) : Prop :=
  ∃ pre1 s1 o1 a1 b1 mid, pre = pre1 ++ Instruction.BinaryOp s1 o1 a1 b1 :: mid ∧
    e = exprString (operandNums (stateAfter pre1) a1 b1).1.1 (opString o1)
      (operandNums (stateAfter pre1) a1 b1).1.2

/-- Every string of the expression table is a canonical string of two numbers
below the counter. -/
def ExprBounded (st : State) : Prop :=
  ∀ e, (st.exprTable e).isSome = true →
    ∃ l o r, e = exprString l (opString o) r ∧ l < st.valueNum ∧ r < st.valueNum

end ValueNumbering

/-! ## Liveness: the LIVEOUT loop -/

namespace Liveness

open IR

theorem mem_foldl_liveOut (m : Maps) (succs : List Value) (acc : Finset Value) (v : Value) :
    v ∈ succs.foldl
        (fun liveOutSet succ =>
          setUnion liveOutSet
            (setUnion (setDiff (m.liveOutMap succ) (m.varKillMap succ)) (m.ueVarMap succ)))
        acc ↔
      v ∈ acc ∨ ∃ s ∈ succs, (v ∈ m.liveOutMap s ∧ v ∉ m.varKillMap s) ∨ v ∈ m.ueVarMap s := by
  induction succs generalizing acc with
  | nil => simp
  | cons s rest ih =>
    rw [List.foldl_cons, ih]
    simp only [setUnion, setDiff, Finset.mem_union, Finset.mem_sdiff, List.mem_cons,
      exists_eq_or_imp, or_assoc]

theorem mem_liveOutOf (m : Maps) (succs : List Value) (v : Value) :
    v ∈ liveOutOf m succs ↔
      ∃ s ∈ succs, (v ∈ m.liveOutMap s ∧ v ∉ m.varKillMap s) ∨ v ∈ m.ueVarMap s := by
  unfold liveOutOf
  rw [mem_foldl_liveOut]
  simp

theorem liveOutOf_eq_biUnion (m : Maps) (succs : List Value) :
    liveOutOf m succs =
      succs.toFinset.biUnion (fun s => (m.liveOutMap s \ m.varKillMap s) ∪ m.ueVarMap s) := by
  ext v
  simp only [mem_liveOutOf, Finset.mem_biUnion, List.mem_toFinset, Finset.mem_union,
    Finset.mem_sdiff]

theorem passStep_fst (acc : Maps × Bool) (bb : BasicBlock) :
    (passStep acc bb).1 =
      { acc.1 with
        liveOutMap := Function.update acc.1.liveOutMap bb.addr (liveOutOf acc.1 bb.succs) } := by
  unfold passStep
  by_cases h : acc.1.liveOutMap bb.addr = liveOutOf acc.1 bb.succs
  · simp only [ne_eq, h, not_true_eq_false, if_false]
    rw [← h, Function.update_eq_self]
  · simp [h]

theorem passStep_snd (acc : Maps × Bool) (bb : BasicBlock) :
    (passStep acc bb).2 =
      (acc.2 || decide (acc.1.liveOutMap bb.addr ≠ liveOutOf acc.1 bb.succs)) := by
  unfold passStep
  by_cases h : acc.1.liveOutMap bb.addr = liveOutOf acc.1 bb.succs
  · simp [h]
  · simp [h]

theorem passStep_varKillMap (acc : Maps × Bool) (bb : BasicBlock) :
    (passStep acc bb).1.varKillMap = acc.1.varKillMap := by
  rw [passStep_fst]

theorem passStep_ueVarMap (acc : Maps × Bool) (bb : BasicBlock) :
    (passStep acc bb).1.ueVarMap = acc.1.ueVarMap := by
  rw [passStep_fst]

theorem foldl_passStep_frame (bs : List BasicBlock) (acc : Maps × Bool) :
    (bs.foldl passStep acc).1.varKillMap = acc.1.varKillMap ∧
      (bs.foldl passStep acc).1.ueVarMap = acc.1.ueVarMap := by
  induction bs generalizing acc with
  | nil => simp
  | cons b rest ih =>
    rw [List.foldl_cons]
    obtain ⟨h1, h2⟩ := ih (passStep acc b)
    rw [h1, h2, passStep_varKillMap, passStep_ueVarMap]
    exact ⟨rfl, rfl⟩

/-- A pass that ends with `continueIter = false` started with it false, left
the maps as they were, and found every block's set equal to the recomputed one. -/
theorem foldl_passStep_false (bs : List BasicBlock) (acc : Maps × Bool)
    (h : (bs.foldl passStep acc).2 = false) :
    acc.2 = false ∧ (bs.foldl passStep acc).1 = acc.1 ∧
      ∀ b ∈ bs, acc.1.liveOutMap b.addr = liveOutOf acc.1 b.succs := by
  induction bs generalizing acc with
  | nil => simpa using h
  | cons b rest ih =>
    rw [List.foldl_cons] at h ⊢
    obtain ⟨h1, h2, h3⟩ := ih (passStep acc b) h
    rw [passStep_snd] at h1
    simp only [ne_eq, Bool.or_eq_false_iff, decide_eq_false_iff_not, not_not] at h1
    have hfst : (passStep acc b).1 = acc.1 := by
      rw [passStep_fst, ← h1.2, Function.update_eq_self]
    rw [hfst] at h2 h3
    refine ⟨h1.1, h2, ?_⟩
    intro b1 hb1
    rcases List.mem_cons.mp hb1 with rfl | hmem
    · exact h1.2
    · exact h3 b1 hmem

theorem foldl_passStep_below (fn : Function) (G : Value → Value → Prop)
    (bs : List BasicBlock) (acc : Maps × Bool) (hbs : ∀ b ∈ bs, b ∈ fn)
    (hG : Closed fn acc.1.varKillMap acc.1.ueVarMap G)
    (hacc : ∀ x v, v ∈ acc.1.liveOutMap x → G x v) :
    ∀ x v, v ∈ (bs.foldl passStep acc).1.liveOutMap x → G x v := by
  induction bs generalizing acc with
  | nil => simpa using hacc
  | cons b rest ih =>
    rw [List.foldl_cons]
    apply ih
    · intro b1 hb1
      exact hbs b1 (List.mem_cons_of_mem _ hb1)
    · rw [passStep_varKillMap, passStep_ueVarMap]
      exact hG
    · intro x v hv
      rw [passStep_fst] at hv
      simp only at hv
      by_cases hx : x = b.addr
      · subst hx
        rw [Function.update_same, mem_liveOutOf] at hv
        obtain ⟨s, hs, hsv⟩ := hv
        refine hG b (hbs b (List.mem_cons_self _ _)) s hs v ?_
        rcases hsv with ⟨h1, h2⟩ | h3
        · exact Or.inl ⟨hacc s v h1, h2⟩
        · exact Or.inr h3
      · rw [Function.update_noteq hx] at hv
        exact hacc x v hv

/-- Whatever the loop returns is a solution of the LIVEOUT equations, it keeps
the VARKILL and UEVAR maps it was given, and it lies below every closed family
that contains the starting LIVEOUT sets. -/
theorem whileLoop_some (fn : Function) (fuel : Nat) (m L : Maps)
    (h : whileLoop fn fuel m = some L) :
    (∀ b ∈ fn, L.liveOutMap b.addr = liveOutOf L b.succs) ∧
      L.varKillMap = m.varKillMap ∧ L.ueVarMap = m.ueVarMap ∧
      ∀ G : Value → Value → Prop, Closed fn m.varKillMap m.ueVarMap G →
        (∀ x v, v ∈ m.liveOutMap x → G x v) → ∀ x v, v ∈ L.liveOutMap x → G x v := by
  induction fuel generalizing m with
  | zero => simp [whileLoop] at h
  | succ n ih =>
    have hframe := foldl_passStep_frame fn (m, false)
    have hbelow : ∀ G : Value → Value → Prop, Closed fn m.varKillMap m.ueVarMap G →
        (∀ x v, v ∈ m.liveOutMap x → G x v) →
        ∀ x v, v ∈ (onePass fn m).1.liveOutMap x → G x v := by
      intro G hG hm
      exact foldl_passStep_below fn G fn (m, false) (fun _ hb => hb) hG hm
    simp only [whileLoop] at h
    by_cases hc : (onePass fn m).2 = true
    · rw [if_pos hc] at h
      obtain ⟨h1, h2, h3, h4⟩ := ih (onePass fn m).1 h
      have hvk : (onePass fn m).1.varKillMap = m.varKillMap := hframe.1
      have hue : (onePass fn m).1.ueVarMap = m.ueVarMap := hframe.2
      rw [hvk] at h2 h4
      rw [hue] at h3 h4
      exact ⟨h1, h2, h3, fun G hG hm => h4 G hG (hbelow G hG hm)⟩
    · rw [if_neg hc] at h
      have hL : (onePass fn m).1 = L := Option.some.inj h
      have hf : (onePass fn m).2 = false := by simpa using hc
      obtain ⟨_, h2, h3⟩ := foldl_passStep_false fn (m, false) hf
      have h2 : (onePass fn m).1 = m := h2
      rw [h2] at hL
      subst hL
      exact ⟨h3, rfl, rfl, fun G _ hm => hm⟩

theorem liveOutOf_mono (m n : Maps) (succs : List Value)
    (hlo : ∀ x, m.liveOutMap x ⊆ n.liveOutMap x) (hvk : n.varKillMap = m.varKillMap)
    (hue : n.ueVarMap = m.ueVarMap) : liveOutOf m succs ⊆ liveOutOf n succs := by
  intro v hv
  rw [mem_liveOutOf] at hv ⊢
  obtain ⟨s, hs, hsv⟩ := hv
  refine ⟨s, hs, ?_⟩
  rw [hvk, hue]
  rcases hsv with ⟨h1, h2⟩ | h3
  · exact Or.inl ⟨hlo s h1, h2⟩
  · exact Or.inr h3

theorem eq_of_addr_eq (fn : Function) (hnd : DistinctBlocks fn) (b c : BasicBlock)
    (hb : b ∈ fn) (hc : c ∈ fn) (h : b.addr = c.addr) : b = c :=
  List.inj_on_of_nodup_map hnd hb hc h

theorem passStep_grows (fn : Function) (hnd : DistinctBlocks fn) (acc : Maps × Bool)
    (b : BasicBlock) (hb : b ∈ fn) (hpf : PostFix fn acc.1) :
    PostFix fn (passStep acc b).1 ∧
      ∀ x, acc.1.liveOutMap x ⊆ (passStep acc b).1.liveOutMap x := by
  have hgrow : ∀ x, acc.1.liveOutMap x ⊆ (passStep acc b).1.liveOutMap x := by
    intro x
    rw [passStep_fst]
    by_cases hx : x = b.addr
    · subst hx
      simp only [Function.update_same]
      exact hpf b hb
    · simp only [Function.update_noteq hx]
      exact Finset.Subset.refl _
  refine ⟨?_, hgrow⟩
  intro c hc
  have hmono := liveOutOf_mono acc.1 (passStep acc b).1 c.succs hgrow
    (passStep_varKillMap acc b) (passStep_ueVarMap acc b)
  refine Finset.Subset.trans ?_ hmono
  by_cases hx : c.addr = b.addr
  · have hcb : c = b := eq_of_addr_eq fn hnd c b hc hb hx
    subst hcb
    rw [passStep_fst]
    simp only [Function.update_same]
    exact Finset.Subset.refl _
  · rw [passStep_fst]
    simp only [Function.update_noteq hx]
    exact hpf c hc

theorem foldl_passStep_grows (fn : Function) (hnd : DistinctBlocks fn)
    (bs : List BasicBlock) (acc : Maps × Bool) (hbs : ∀ b ∈ bs, b ∈ fn)
    (hpf : PostFix fn acc.1) :
    PostFix fn (bs.foldl passStep acc).1 ∧
      (∀ x, acc.1.liveOutMap x ⊆ (bs.foldl passStep acc).1.liveOutMap x) ∧
      ((bs.foldl passStep acc).2 = true → acc.2 = true ∨
        ∃ b ∈ fn, acc.1.liveOutMap b.addr ⊂ (bs.foldl passStep acc).1.liveOutMap b.addr) := by
  induction bs generalizing acc with
  | nil =>
    refine ⟨hpf, fun x => Finset.Subset.refl _, ?_⟩
    intro h
    exact Or.inl h
  | cons b rest ih =>
    rw [List.foldl_cons]
    have hb : b ∈ fn := hbs b (List.mem_cons_self _ _)
    obtain ⟨hpf1, hgrow1⟩ := passStep_grows fn hnd acc b hb hpf
    obtain ⟨hpf2, hgrow2, hflag⟩ :=
      ih (passStep acc b) (fun c hc => hbs c (List.mem_cons_of_mem _ hc)) hpf1
    refine ⟨hpf2, fun x => Finset.Subset.trans (hgrow1 x) (hgrow2 x), ?_⟩
    intro hres
    rcases hflag hres with hstep | ⟨c, hc, hlt⟩
    · rw [passStep_snd] at hstep
      simp only [ne_eq, Bool.or_eq_true, decide_eq_true_eq] at hstep
      rcases hstep with h1 | h2
      · exact Or.inl h1
      · refine Or.inr ⟨b, hb, ?_⟩
        have hsub : acc.1.liveOutMap b.addr ⊂ (passStep acc b).1.liveOutMap b.addr := by
          refine Finset.ssubset_iff_subset_ne.mpr ⟨hgrow1 b.addr, ?_⟩
          rw [passStep_fst]
          simp only [Function.update_same]
          exact h2
        exact Finset.ssubset_of_ssubset_of_subset hsub (hgrow2 b.addr)
    · exact Or.inr ⟨c, hc, Finset.ssubset_of_subset_of_ssubset (hgrow1 c.addr) hlt⟩

theorem weight_le_bound (fn : Function) (m : Maps) (U : Finset Value)
    (hU : ∀ x, m.liveOutMap x ⊆ U) : weight fn m ≤ fn.length * U.card := by
  unfold weight
  have h1 := Finset.sum_le_card_nsmul (fn.map BasicBlock.addr).toFinset
    (fun x => (m.liveOutMap x).card) U.card (fun x _ => Finset.card_le_card (hU x))
  have h2 : (fn.map BasicBlock.addr).toFinset.card ≤ fn.length := by
    have := List.toFinset_card_le (fn.map BasicBlock.addr)
    simpa using this
  calc (fn.map BasicBlock.addr).toFinset.sum (fun x => (m.liveOutMap x).card)
      ≤ (fn.map BasicBlock.addr).toFinset.card * U.card := by simpa using h1
    _ ≤ fn.length * U.card := Nat.mul_le_mul_right _ h2

theorem weight_lt (fn : Function) (m n : Maps)
    (hgrow : ∀ x, m.liveOutMap x ⊆ n.liveOutMap x)
    (hstrict : ∃ b ∈ fn, m.liveOutMap b.addr ⊂ n.liveOutMap b.addr) :
    weight fn m < weight fn n := by
  unfold weight
  obtain ⟨b, hb, hlt⟩ := hstrict
  apply Finset.sum_lt_sum
  · intro x _
    exact Finset.card_le_card (hgrow x)
  · refine ⟨b.addr, ?_, Finset.card_lt_card hlt⟩
    simp only [List.mem_toFinset, List.mem_map]
    exact ⟨b, hb, rfl⟩

theorem closed_universe (fn : Function) (vk ue : Value → Finset Value) :
    Closed fn vk ue (fun _ v => v ∈ ueUniverse fn ue) := by
  intro b hb s hs v hv
  rcases hv with ⟨h1, _⟩ | h2
  · exact h1
  · simp only [ueUniverse, Finset.mem_biUnion, List.mem_toFinset]
    exact ⟨b, hb, s, hs, h2⟩

/-- From growing sets inside a finite universe the loop stops: with `d` units
of room left below the size bound, any fuel above `d` suffices. -/
theorem whileLoop_terminates (fn : Function) (hnd : DistinctBlocks fn) (U : Finset Value) :
    ∀ (d : Nat) (m : Maps), PostFix fn m →
      Closed fn m.varKillMap m.ueVarMap (fun _ v => v ∈ U) →
      (∀ x, m.liveOutMap x ⊆ U) → fn.length * U.card ≤ weight fn m + d →
      ∀ fuel, d < fuel → ∃ L, whileLoop fn fuel m = some L := by
  intro d
  induction d with
  | zero =>
    intro m hpf hcl hU hroom fuel hfuel
    obtain ⟨n, rfl⟩ : ∃ n, fuel = n + 1 := ⟨fuel - 1, by omega⟩
    simp only [whileLoop]
    obtain ⟨_, hgrow, hflag⟩ :=
      foldl_passStep_grows fn hnd fn (m, false) (fun _ hb => hb) hpf
    by_cases hc : (onePass fn m).2 = true
    · exfalso
      rcases hflag hc with h | hstrict
      · simp at h
      · have hlt := weight_lt fn m (onePass fn m).1 hgrow hstrict
        have hbelow := foldl_passStep_below fn (fun _ v => v ∈ U) fn (m, false)
          (fun _ hb => hb) hcl (fun x v hv => hU x hv)
        have hle := weight_le_bound fn (onePass fn m).1 U (fun x v hv => hbelow x v hv)
        omega
    · rw [if_neg hc]
      exact ⟨_, rfl⟩
  | succ k ih =>
    intro m hpf hcl hU hroom fuel hfuel
    obtain ⟨n, rfl⟩ : ∃ n, fuel = n + 1 := ⟨fuel - 1, by omega⟩
    simp only [whileLoop]
    obtain ⟨hpf1, hgrow, hflag⟩ :=
      foldl_passStep_grows fn hnd fn (m, false) (fun _ hb => hb) hpf
    by_cases hc : (onePass fn m).2 = true
    · rw [if_pos hc]
      have hframe := foldl_passStep_frame fn (m, false)
      have hbelow := foldl_passStep_below fn (fun _ v => v ∈ U) fn (m, false)
        (fun _ hb => hb) hcl (fun x v hv => hU x hv)
      apply ih (onePass fn m).1 hpf1
      · have hvk : (onePass fn m).1.varKillMap = m.varKillMap := hframe.1
        have hue : (onePass fn m).1.ueVarMap = m.ueVarMap := hframe.2
        rw [hvk, hue]
        exact hcl
      · exact fun x v hv => hbelow x v hv
      · rcases hflag hc with h | hstrict
        · simp at h
        · have hlt := weight_lt fn m (onePass fn m).1 hgrow hstrict
          omega
      · omega
    · rw [if_neg hc]
      exact ⟨_, rfl⟩

/-- The loop of `visitor`, started from all-empty LIVEOUT sets on any VARKILL
and UEVAR maps, returns within `passBound` passes. -/
theorem liveOutLoop_returns (fn : Function) (hnd : DistinctBlocks fn)
    (vk ue : Value → Finset Value) (lo : Value → Finset Value) (hlo : ∀ x, lo x = ∅) :
    ∀ fuel, passBound fn ue ≤ fuel → ∃ L, whileLoop fn fuel ⟨lo, vk, ue⟩ = some L := by
  intro fuel hfuel
  apply whileLoop_terminates fn hnd (ueUniverse fn ue) (fn.length * (ueUniverse fn ue).card)
  · intro b _
    simp [hlo]
  · exact closed_universe fn vk ue
  · intro x
    simp [hlo]
  · omega
  · unfold passBound at hfuel
    omega

theorem whileLoop_more_fuel (fn : Function) (fuel : Nat) (m L : Maps)
    (h : whileLoop fn fuel m = some L) : ∀ k, whileLoop fn (fuel + k) m = some L := by
  induction fuel generalizing m with
  | zero => simp [whileLoop] at h
  | succ n ih =>
    intro k
    have hk : n + 1 + k = (n + k) + 1 := by omega
    rw [hk]
    simp only [whileLoop] at h ⊢
    by_cases hc : (onePass fn m).2 = true
    · rw [if_pos hc] at h ⊢
      exact ih _ h k
    · rw [if_neg hc] at h ⊢
      exact h

/-- Total correctness of the loop from all-empty LIVEOUT sets: it returns, with
the same maps for every bound from `passBound` on; they solve the equations and
are the least family closed under the transfer function. -/
theorem whileLoop_result (fn : Function) (hnd : DistinctBlocks fn)
    (vk ue : Value → Finset Value) :
    ∃ L, (∀ fuel, passBound fn ue ≤ fuel →
        whileLoop fn fuel ⟨fun _ => ∅, vk, ue⟩ = some L) ∧
      (∀ b ∈ fn, L.liveOutMap b.addr = liveOutOf L b.succs) ∧
      L.varKillMap = vk ∧ L.ueVarMap = ue ∧
      ∀ G : Value → Value → Prop, Closed fn vk ue G → ∀ x v, v ∈ L.liveOutMap x → G x v := by
  obtain ⟨L, hL⟩ := liveOutLoop_returns fn hnd vk ue (fun _ => ∅) (fun _ => rfl)
    (passBound fn ue) (le_refl _)
  obtain ⟨h1, h2, h3, h4⟩ := whileLoop_some fn _ _ L hL
  refine ⟨L, ?_, h1, h2, h3, ?_⟩
  · intro fuel hfuel
    obtain ⟨k, rfl⟩ : ∃ k, fuel = passBound fn ue + k := ⟨fuel - passBound fn ue, by omega⟩
    exact whileLoop_more_fuel fn _ _ L hL k
  · intro G hG x v hv
    exact h4 G hG (fun _ _ h => by simp at h) x v hv

/-! ## Liveness: pass 1 -/

theorem foldl_pass1Block_liveOutMap (bs : List BasicBlock) (m : Maps)
    (hm : ∀ x, m.liveOutMap x = ∅) : ∀ x, (bs.foldl pass1Block m).liveOutMap x = ∅ := by
  induction bs generalizing m with
  | nil => simpa using hm
  | cons b rest ih =>
    rw [List.foldl_cons]
    apply ih
    intro x
    simp only [pass1Block]
    by_cases hx : x = b.addr
    · subst hx
      simp
    · rw [Function.update_noteq hx]
      exact hm x

theorem pass1_liveOutMap (fn : Function) : (pass1 fn).liveOutMap = fun _ => ∅ := by
  funext x
  exact foldl_pass1Block_liveOutMap fn Maps.empty (fun _ => rfl) x

theorem foldl_pass1Block_other (bs : List BasicBlock) (m : Maps) (x : Value)
    (hx : x ∉ bs.map BasicBlock.addr) :
    (bs.foldl pass1Block m).varKillMap x = m.varKillMap x ∧
      (bs.foldl pass1Block m).ueVarMap x = m.ueVarMap x := by
  induction bs generalizing m with
  | nil => simp
  | cons b rest ih =>
    rw [List.foldl_cons]
    simp only [List.map_cons, List.mem_cons, not_or] at hx
    obtain ⟨h1, h2⟩ := ih (pass1Block m b) hx.2
    rw [h1, h2]
    simp only [pass1Block]
    rw [Function.update_noteq hx.1, Function.update_noteq hx.1]
    exact ⟨rfl, rfl⟩

theorem foldl_pass1Block_mem (bs : List BasicBlock) (m : Maps)
    (hnd : (bs.map BasicBlock.addr).Nodup) (b : BasicBlock) (hb : b ∈ bs) :
    (bs.foldl pass1Block m).varKillMap b.addr = (scanBlock b.insts).varKillSet ∧
      (bs.foldl pass1Block m).ueVarMap b.addr = (scanBlock b.insts).ueVarSet := by
  induction bs generalizing m with
  | nil => simp at hb
  | cons c rest ih =>
    rw [List.foldl_cons]
    simp only [List.map_cons, List.nodup_cons] at hnd
    rcases List.mem_cons.mp hb with rfl | hmem
    · obtain ⟨h1, h2⟩ := foldl_pass1Block_other rest (pass1Block m b) b.addr hnd.1
      rw [h1, h2]
      simp [pass1Block]
    · exact ih (pass1Block m c) hnd.2 hmem

/-- Under pass 1 each block of the function finds its own two sets in the maps. -/
theorem pass1_mem (fn : Function) (hnd : DistinctBlocks fn) (b : BasicBlock) (hb : b ∈ fn) :
    (pass1 fn).varKillMap b.addr = (scanBlock b.insts).varKillSet ∧
      (pass1 fn).ueVarMap b.addr = (scanBlock b.insts).ueVarSet :=
  foldl_pass1Block_mem fn Maps.empty hnd b hb

/-- The run of `visitor` on a function of distinct blocks: it exits, holding
the VARKILL/UEVAR maps of pass 1 and the least solution of the equations. -/
theorem visitor_result (fn : Function) (hnd : DistinctBlocks fn) :
    ∃ L, Yields fn L ∧
      (∀ b ∈ fn, L.liveOutMap b.addr = liveOutOf L b.succs) ∧
      L.varKillMap = (pass1 fn).varKillMap ∧ L.ueVarMap = (pass1 fn).ueVarMap ∧
      ∀ G : Value → Value → Prop, Closed fn (pass1 fn).varKillMap (pass1 fn).ueVarMap G →
        ∀ x v, v ∈ L.liveOutMap x → G x v := by
  obtain ⟨L, h1, h2, h3, h4, h5⟩ :=
    whileLoop_result fn hnd (pass1 fn).varKillMap (pass1 fn).ueVarMap
  refine ⟨L, ?_, h2, h3, h4, h5⟩
  intro fuel hfuel
  have := h1 fuel hfuel
  unfold visitor
  rw [← pass1_liveOutMap fn] at this
  exact this

/-! ## Liveness: paths -/

theorem closed_livePath (fn : Function) (vk ue : Value → Finset Value) :
    Closed fn vk ue (fun x v => LivePath fn vk ue v x) := by
  intro b hb s hs v hv
  rcases hv with ⟨⟨path, sk, hlast, hchain, hue, hkill⟩, hvk⟩ | hue
  · cases path with
    | nil => simp at hlast
    | cons q rest =>
      refine ⟨s :: q :: rest, sk, ?_, ?_, hue, ?_⟩
      · rw [List.getLast?_cons_cons]
        exact hlast
      · exact List.Chain.cons ⟨b, hb, rfl, hs⟩ hchain
      · intro t ht
        rw [List.dropLast_cons₂] at ht
        rcases List.mem_cons.mp ht with rfl | hmem
        · exact hvk
        · exact hkill t hmem
  · refine ⟨[s], s, rfl, ?_, hue, ?_⟩
    · exact List.Chain.cons ⟨b, hb, rfl, hs⟩ List.Chain.nil
    · intro t ht
      simp at ht

theorem mem_of_livePath (fn : Function) (L : Maps)
    (hfix : ∀ b ∈ fn, L.liveOutMap b.addr = liveOutOf L b.succs) (v : Value)
    (path : List Value) :
    ∀ (x sk : Value), path.getLast? = some sk → List.Chain (Edge fn) x path →
      v ∈ L.ueVarMap sk → (∀ s ∈ path.dropLast, v ∉ L.varKillMap s) →
      v ∈ L.liveOutMap x := by
  induction path with
  | nil =>
    intro x sk hlast
    simp at hlast
  | cons q rest ih =>
    intro x sk hlast hchain hue hkill
    rw [List.chain_cons] at hchain
    obtain ⟨⟨b, hb, hbx, hq⟩, hrest⟩ := hchain
    subst hbx
    rw [hfix b hb, mem_liveOutOf]
    refine ⟨q, hq, ?_⟩
    cases rest with
    | nil =>
      simp only [List.getLast?_singleton, Option.some.injEq] at hlast
      subst hlast
      exact Or.inr hue
    | cons r rest2 =>
      rw [List.getLast?_cons_cons] at hlast
      rw [List.dropLast_cons₂] at hkill
      refine Or.inl ⟨?_, hkill q (List.mem_cons_self _ _)⟩
      exact ih q sk hlast hrest hue (fun s hs => hkill s (List.mem_cons_of_mem _ hs))

/-! ## Liveness: the two block-local sets -/

theorem foldl_scanInst_varKillSet (insts : List Instruction) (acc : BlockSets) (p : Value) :
    p ∈ (insts.foldl scanInst acc).varKillSet ↔
      p ∈ acc.varKillSet ∨ p ∈ insts.filterMap storeDest := by
  induction insts generalizing acc with
  | nil => simp
  | cons i rest ih =>
    rw [List.foldl_cons, ih]
    cases i with
    | Load self op0 =>
      by_cases h : op0 ∈ acc.varKillSet <;> simp [scanInst, storeDest, h]
    | Store self op0 op1 =>
      simp only [scanInst, Finset.mem_insert, List.filterMap_cons, storeDest, List.mem_cons]
      tauto
    | BinaryOp self opc op0 op1 => simp [scanInst, storeDest]
    | Other self => simp [scanInst, storeDest]

/-- The loads of `p` that pass 1 counts as upward exposed: a `Load` of `p` with
no `Store` into `p` anywhere before it in the instruction list. -/
theorem foldl_scanInst_ueVarSet (insts : List Instruction) (acc : BlockSets) (p : Value) :
    p ∈ (insts.foldl scanInst acc).ueVarSet ↔
      p ∈ acc.ueVarSet ∨ (p ∉ acc.varKillSet ∧
        ∃ pre self post, insts = pre ++ Instruction.Load self p :: post ∧
          ∀ self1 v, Instruction.Store self1 v p ∉ pre) := by
  induction insts generalizing acc with
  | nil => simp
  | cons i rest ih =>
    rw [List.foldl_cons, ih]
    constructor
    · rintro (h | ⟨hk, pre, self, post, hrest, hpre⟩)
      · cases i with
        | Load s q =>
          by_cases hq : q ∈ acc.varKillSet
          · left
            simpa [scanInst, hq] using h
          · simp only [scanInst, hq, not_false_eq_true, if_true, Finset.mem_insert] at h
            rcases h with rfl | h
            · exact Or.inr ⟨hq, [], s, rest, rfl, by simp⟩
            · exact Or.inl h
        | Store s v q => exact Or.inl h
        | BinaryOp s opc a b => exact Or.inl h
        | Other s => exact Or.inl h
      · right
        have hk1 : p ∉ acc.varKillSet := by
          intro hmem
          apply hk
          cases i with
          | Load s q => by_cases hq : q ∈ acc.varKillSet <;> simpa [scanInst, hq] using hmem
          | Store s v q => simp [scanInst, hmem]
          | BinaryOp s opc a b => exact hmem
          | Other s => exact hmem
        refine ⟨hk1, i :: pre, self, post, by rw [hrest]; rfl, ?_⟩
        intro self1 v hmem
        rcases List.mem_cons.mp hmem with heq | hmem1
        · apply hk
          rw [← heq]
          simp [scanInst]
        · exact hpre self1 v hmem1
    · rintro (h | ⟨hk, pre, self, post, hrest, hpre⟩)
      · left
        cases i with
        | Load s q => by_cases hq : q ∈ acc.varKillSet <;> simp [scanInst, hq, h]
        | Store s v q => exact h
        | BinaryOp s opc a b => exact h
        | Other s => exact h
      · cases pre with
        | nil =>
          simp only [List.nil_append, List.cons.injEq] at hrest
          obtain ⟨rfl, _⟩ := hrest
          left
          simp [scanInst, hk]
        | cons j pre1 =>
          simp only [List.cons_append, List.cons.injEq] at hrest
          obtain ⟨rfl, hrest1⟩ := hrest
          right
          refine ⟨?_, pre1, self, post, hrest1, ?_⟩
          · cases i with
            | Load s q => by_cases hq : q ∈ acc.varKillSet <;> simpa [scanInst, hq] using hk
            | Store s v q =>
              simp only [scanInst, Finset.mem_insert, not_or]
              refine ⟨?_, hk⟩
              rintro rfl
              exact hpre s v (List.mem_cons_self _ _)
            | BinaryOp s opc a b => exact hk
            | Other s => exact hk
          · intro self1 v hmem
            exact hpre self1 v (List.mem_cons_of_mem _ hmem)

theorem scanBlock_append (pre post : List Instruction) :
    scanBlock (pre ++ post) = post.foldl scanInst (scanBlock pre) := by
  unfold scanBlock
  rw [List.foldl_append]

theorem Maps.eq_of_fields (L M : Maps) (h1 : L.liveOutMap = M.liveOutMap)
    (h2 : L.varKillMap = M.varKillMap) (h3 : L.ueVarMap = M.ueVarMap) : L = M := by
  cases L
  cases M
  simp only at h1 h2 h3
  subst h1 h2 h3
  rfl

theorem closed_of_solution (fn : Function) (L : Maps)
    (hfix : ∀ b ∈ fn, L.liveOutMap b.addr = liveOutOf L b.succs) :
    Closed fn L.varKillMap L.ueVarMap (fun x v => v ∈ L.liveOutMap x) := by
  intro b hb s hs v hv
  rw [hfix b hb, mem_liveOutOf]
  exact ⟨s, hs, hv⟩

/-! ## Liveness: the claims -/

/-- C1: for every function (its blocks distinct objects), `visitor` leaves its
`while` loop, and the maps it then holds are the VARKILL and UEVAR maps of
pass 1 together with a LIVEOUT map in which every block `b` of the function has
`LIVEOUT(b)` equal to the union over the successors `s` of `b` of
`(LIVEOUT(s) minus VARKILL(s)) union UEVAR(s)`. -/
theorem liveOut_satisfies_equations (fn : Function) (hnd : DistinctBlocks fn) :
    ∃ L, Yields fn L ∧
      L.varKillMap = (pass1 fn).varKillMap ∧ L.ueVarMap = (pass1 fn).ueVarMap ∧
      ∀ b ∈ fn, L.liveOutMap b.addr =
        b.succs.toFinset.biUnion
          (fun s => (L.liveOutMap s \ L.varKillMap s) ∪ L.ueVarMap s) := by
  obtain ⟨L, h1, h2, h3, h4, _⟩ := visitor_result fn hnd
  refine ⟨L, h1, h3, h4, ?_⟩
  intro b hb
  rw [h2 b hb, liveOutOf_eq_biUnion]

/-- Witness of C1 on the three-block loop `loopFn`. -/
theorem liveOut_satisfies_equations_witness :
    DistinctBlocks loopFn ∧
      ∃ L, Yields loopFn L ∧
        L.varKillMap = (pass1 loopFn).varKillMap ∧ L.ueVarMap = (pass1 loopFn).ueVarMap ∧
        ∀ b ∈ loopFn, L.liveOutMap b.addr =
          b.succs.toFinset.biUnion
            (fun s => (L.liveOutMap s \ L.varKillMap s) ∪ L.ueVarMap s) :=
  ⟨by decide, liveOut_satisfies_equations loopFn (by decide)⟩

/-- C2: for every function of finitely many (distinct) blocks and all finite
VARKILL and UEVAR sets, the LIVEOUT loop started from all-empty sets, each pass
updating the sets in place, stops: once the bound on the number of passes is at
least `passBound` (blocks times live-able variables, plus one) the loop has
exited, always with the same maps; so does the loop of `visitor` on the maps of
pass 1. -/
theorem liveOutLoop_terminates (fn : Function) (hnd : DistinctBlocks fn)
    (vk ue : Value → Finset Value) :
    (∃ L, ∀ fuel, passBound fn ue ≤ fuel → liveOutLoop fuel fn vk ue = some L) ∧
      ∃ L, ∀ fuel, passBound fn (pass1 fn).ueVarMap ≤ fuel → visitor fuel fn = some L := by
  obtain ⟨L, h1, _⟩ := whileLoop_result fn hnd vk ue
  obtain ⟨M, h2, _⟩ := visitor_result fn hnd
  exact ⟨⟨L, h1⟩, ⟨M, h2⟩⟩

/-- Witness of C2 on `loopFn` with the sets of its pass 1. -/
theorem liveOutLoop_terminates_witness :
    DistinctBlocks loopFn ∧
      ∃ L, ∀ fuel, passBound loopFn (pass1 loopFn).ueVarMap ≤ fuel →
        liveOutLoop fuel loopFn (pass1 loopFn).varKillMap (pass1 loopFn).ueVarMap = some L :=
  ⟨by decide,
    (liveOutLoop_terminates loopFn (by decide) (pass1 loopFn).varKillMap
      (pass1 loopFn).ueVarMap).1⟩

/-- C3: in the LIVEOUT map `visitor` ends with, `v` is in `LIVEOUT(b)` exactly
when some non-empty path of successor edges `b -> s1 -> ... -> sk` has `v` in
`UEVAR(sk)` and `v` outside `VARKILL(si)` for every `i < k`. -/
theorem liveOut_iff_livePath (fn : Function) (hnd : DistinctBlocks fn) :
    ∃ L, Yields fn L ∧
      ∀ b ∈ fn, ∀ v, v ∈ L.liveOutMap b.addr ↔
        ∃ (path : List Value) (sk : Value), path.getLast? = some sk ∧
          List.Chain (Edge fn) b.addr path ∧ v ∈ (pass1 fn).ueVarMap sk ∧
          ∀ s ∈ path.dropLast, v ∉ (pass1 fn).varKillMap s := by
  obtain ⟨L, h1, h2, h3, h4, h5⟩ := visitor_result fn hnd
  refine ⟨L, h1, ?_⟩
  intro b _ v
  constructor
  · intro hv
    exact h5 _ (closed_livePath fn _ _) b.addr v hv
  · rintro ⟨path, sk, hlast, hchain, hue, hkill⟩
    rw [← h4] at hue
    rw [← h3] at hkill
    exact mem_of_livePath fn L h2 v path b.addr sk hlast hchain hue hkill

/-- Witness of C3 on `loopFn`. -/
theorem liveOut_iff_livePath_witness :
    DistinctBlocks loopFn ∧
      ∃ L, Yields loopFn L ∧
        ∀ b ∈ loopFn, ∀ v, v ∈ L.liveOutMap b.addr ↔
          ∃ (path : List Value) (sk : Value), path.getLast? = some sk ∧
            List.Chain (Edge loopFn) b.addr path ∧ v ∈ (pass1 loopFn).ueVarMap sk ∧
            ∀ s ∈ path.dropLast, v ∉ (pass1 loopFn).varKillMap s :=
  ⟨by decide, liveOut_iff_livePath loopFn (by decide)⟩

/-- C4: for a block `b` of a function and a variable `p`, `p` is in the UEVAR
set pass 1 stores for `b` exactly when `b` has a `Load` with operand 0 equal to
`p` and no `Store` with operand 1 equal to `p` before it in the block; the block
`[load p; store p]` gets UEVAR `{p}` and the block `[store p; load p]` gets the
empty UEVAR. -/
theorem ueVar_iff_load_before_store (fn : Function) (hnd : DistinctBlocks fn)
    (b : BasicBlock) (hb : b ∈ fn) (p : Value) :
    (p ∈ (pass1 fn).ueVarMap b.addr ↔
        ∃ pre self post, b.insts = pre ++ Instruction.Load self p :: post ∧
          ∀ self1 v, Instruction.Store self1 v p ∉ pre) ∧
      (∀ ld st v, b.insts = [Instruction.Load ld p, Instruction.Store st v p] →
        (pass1 fn).ueVarMap b.addr = {p}) ∧
      (∀ ld st v, b.insts = [Instruction.Store st v p, Instruction.Load ld p] →
        (pass1 fn).ueVarMap b.addr = ∅) := by
  rw [(pass1_mem fn hnd b hb).2]
  refine ⟨?_, ?_, ?_⟩
  · unfold scanBlock
    rw [foldl_scanInst_ueVarSet]
    simp
  · intro ld st v h
    rw [h]
    simp [scanBlock, scanInst]
  · intro ld st v h
    rw [h]
    simp [scanBlock, scanInst]

/-- Witness of C4 on the first block of `loopFn` and the variable `1`. -/
theorem ueVar_iff_load_before_store_witness :
    DistinctBlocks loopFn ∧
      (⟨100, [.Load 5 1, .Store 6 5 2], [101]⟩ : BasicBlock) ∈ loopFn ∧
      (1 ∈ (pass1 loopFn).ueVarMap 100 ↔
        ∃ pre self post, [Instruction.Load 5 1, Instruction.Store 6 5 2] =
            pre ++ Instruction.Load self 1 :: post ∧
          ∀ self1 v, Instruction.Store self1 v 1 ∉ pre) :=
  ⟨by decide, by decide,
    (ueVar_iff_load_before_store loopFn (by decide) ⟨100, [.Load 5 1, .Store 6 5 2], [101]⟩
      (by decide) 1).1⟩

/-- C5: the VARKILL set pass 1 computes for a block is exactly the set of the
operands 1 of the `Store` instructions of the block, and a binary operator or
any other instruction that is neither `Load` nor `Store` can be removed from
the block at any position without changing either of the two sets. -/
theorem varKill_eq_store_dests (insts : List Instruction) :
    (scanBlock insts).varKillSet = (insts.filterMap storeDest).toFinset ∧
      (∀ pre post self opcode op0 op1,
        insts = pre ++ Instruction.BinaryOp self opcode op0 op1 :: post →
        scanBlock (pre ++ post) = scanBlock insts) ∧
      (∀ pre post self, insts = pre ++ Instruction.Other self :: post →
        scanBlock (pre ++ post) = scanBlock insts) := by
  refine ⟨?_, ?_, ?_⟩
  · ext p
    unfold scanBlock
    rw [foldl_scanInst_varKillSet]
    simp
  · intro pre post self opcode op0 op1 h
    rw [h, scanBlock_append, scanBlock_append]
    rfl
  · intro pre post self h
    rw [h, scanBlock_append, scanBlock_append]
    rfl

/-- Witness of C5: a block with a store, an add, an unhandled instruction and a
load; the add is removed. -/
theorem varKill_eq_store_dests_witness :
    scanBlock ([Instruction.Store 6 9 1] ++ [Instruction.Other 3, Instruction.Load 5 2]) =
      scanBlock [Instruction.Store 6 9 1, Instruction.BinaryOp 7 .Add 9 9,
        Instruction.Other 3, Instruction.Load 5 2] :=
  (varKill_eq_store_dests [Instruction.Store 6 9 1, Instruction.BinaryOp 7 .Add 9 9,
    Instruction.Other 3, Instruction.Load 5 2]).2.1 [Instruction.Store 6 9 1]
    [Instruction.Other 3, Instruction.Load 5 2] 7 .Add 9 9 rfl

/-- C6: a block of the function that has no successors ends with the empty
LIVEOUT set. -/
theorem liveOut_empty_of_no_succs (fn : Function) (hnd : DistinctBlocks fn)
    (b : BasicBlock) (hb : b ∈ fn) (hs : b.succs = []) :
    ∃ L, Yields fn L ∧ L.liveOutMap b.addr = ∅ := by
  obtain ⟨L, h1, h2, _⟩ := visitor_result fn hnd
  refine ⟨L, h1, ?_⟩
  rw [h2 b hb, hs]
  rfl

/-- Witness of C6 on the exit block of `loopFn`. -/
theorem liveOut_empty_of_no_succs_witness :
    DistinctBlocks loopFn ∧ (⟨102, [.Load 8 2], []⟩ : BasicBlock) ∈ loopFn ∧
      ∃ L, Yields loopFn L ∧ L.liveOutMap 102 = ∅ :=
  ⟨by decide, by decide,
    liveOut_empty_of_no_succs loopFn (by decide) ⟨102, [.Load 8 2], []⟩ (by decide) rfl⟩

/-- C7: in a two-block function `B1 -> B2` whose second block has no
successors, `visitor` ends with `LIVEOUT(B2)` empty and `LIVEOUT(B1)` equal to
`UEVAR(B2)`; when `B1` is the single instruction `store t into p` and `B2` the
single instruction `load p` (Scenario B), it ends with `VARKILL(B1) = {p}`,
`UEVAR(B1) = {}`, `VARKILL(B2) = {}`, `UEVAR(B2) = {p}`, `LIVEOUT(B2) = {}` and
`LIVEOUT(B1) = {p}`. -/
theorem two_block_liveOut (B1 B2 : BasicBlock) (hne : B1.addr ≠ B2.addr)
    (h1 : B1.succs = [B2.addr]) (h2 : B2.succs = []) :
    ∃ L, Yields [B1, B2] L ∧
      L.liveOutMap B2.addr = ∅ ∧ L.liveOutMap B1.addr = L.ueVarMap B2.addr ∧
      L.ueVarMap B2.addr = (scanBlock B2.insts).ueVarSet ∧
      ∀ st t p ld, B1.insts = [Instruction.Store st t p] → B2.insts = [Instruction.Load ld p] →
        L.varKillMap B1.addr = {p} ∧ L.ueVarMap B1.addr = ∅ ∧
        L.varKillMap B2.addr = ∅ ∧ L.ueVarMap B2.addr = {p} ∧
        L.liveOutMap B2.addr = ∅ ∧ L.liveOutMap B1.addr = {p} := by
  have hnd : DistinctBlocks [B1, B2] := by
    simp [DistinctBlocks, hne]
  obtain ⟨L, hY, hfix, hvk, hue, _⟩ := visitor_result [B1, B2] hnd
  have hm1 := pass1_mem [B1, B2] hnd B1 (by simp)
  have hm2 := pass1_mem [B1, B2] hnd B2 (by simp)
  have hlo2 : L.liveOutMap B2.addr = ∅ := by
    rw [hfix B2 (by simp), h2]
    rfl
  have hlo1 : L.liveOutMap B1.addr = L.ueVarMap B2.addr := by
    rw [hfix B1 (by simp), h1]
    simp [liveOutOf, setUnion, setDiff, hlo2]
  have hue2 : L.ueVarMap B2.addr = (scanBlock B2.insts).ueVarSet := by
    rw [hue, hm2.2]
  refine ⟨L, hY, hlo2, hlo1, hue2, ?_⟩
  intro st t p ld hi1 hi2
  have e1 : L.varKillMap B1.addr = {p} := by
    rw [hvk, hm1.1, hi1]
    simp [scanBlock, scanInst]
  have e2 : L.ueVarMap B1.addr = ∅ := by
    rw [hue, hm1.2, hi1]
    simp [scanBlock, scanInst]
  have e3 : L.varKillMap B2.addr = ∅ := by
    rw [hvk, hm2.1, hi2]
    simp [scanBlock, scanInst]
  have e4 : L.ueVarMap B2.addr = {p} := by
    rw [hue2, hi2]
    simp [scanBlock, scanInst]
  exact ⟨e1, e2, e3, e4, hlo2, by rw [hlo1, e4]⟩

/-- Witness of C7 on Scenario B with `p = 1`. -/
theorem two_block_liveOut_witness :
    ∃ L, Yields [scenarioB1, scenarioB2] L ∧
      L.varKillMap 100 = {1} ∧ L.ueVarMap 100 = ∅ ∧
      L.varKillMap 101 = ∅ ∧ L.ueVarMap 101 = {1} ∧
      L.liveOutMap 101 = ∅ ∧ L.liveOutMap 100 = {1} := by
  obtain ⟨L, hY, _, _, _, h⟩ :=
    two_block_liveOut scenarioB1 scenarioB2 (by decide) rfl rfl
  exact ⟨L, hY, h 6 9 1 5 rfl rfl⟩

/-- C8: the final maps do not depend on the order in which a pass enumerates
the blocks: for given successor lists, VARKILL and UEVAR maps, the in-place
LIVEOUT loop from all-empty sets run over a block list and over any permutation
of it exits with the same maps, so with the same LIVEOUT set for every block. -/
theorem liveOut_order_independent (fn1 fn2 : Function) (hperm : fn1.Perm fn2)
    (hnd : DistinctBlocks fn1) (vk ue : Value → Finset Value) :
    ∃ L, LoopYields fn1 vk ue L ∧ LoopYields fn2 vk ue L := by
  have hnd2 : DistinctBlocks fn2 :=
    ((hperm.map BasicBlock.addr).nodup_iff).mp hnd
  obtain ⟨L1, hY1, hfix1, hvk1, hue1, hmin1⟩ := whileLoop_result fn1 hnd vk ue
  obtain ⟨L2, hY2, hfix2, hvk2, hue2, hmin2⟩ := whileLoop_result fn2 hnd2 vk ue
  have hc2 : Closed fn1 vk ue (fun x v => v ∈ L2.liveOutMap x) := by
    have := closed_of_solution fn2 L2 hfix2
    rw [hvk2, hue2] at this
    intro b hb
    exact this b (hperm.mem_iff.mp hb)
  have hc1 : Closed fn2 vk ue (fun x v => v ∈ L1.liveOutMap x) := by
    have := closed_of_solution fn1 L1 hfix1
    rw [hvk1, hue1] at this
    intro b hb
    exact this b (hperm.mem_iff.mpr hb)
  have heq : L1 = L2 := by
    apply Maps.eq_of_fields
    · funext x
      exact Finset.Subset.antisymm (fun v hv => hmin1 _ hc2 x v hv)
        (fun v hv => hmin2 _ hc1 x v hv)
    · rw [hvk1, hvk2]
    · rw [hue1, hue2]
  subst heq
  exact ⟨L1, hY1, hY2⟩

/-- Witness of C8: `loopFn` and its reversal, on the sets of pass 1. -/
theorem liveOut_order_independent_witness :
    loopFn.Perm loopFn.reverse ∧ DistinctBlocks loopFn ∧
      ∃ L, LoopYields loopFn (pass1 loopFn).varKillMap (pass1 loopFn).ueVarMap L ∧
        LoopYields loopFn.reverse (pass1 loopFn).varKillMap (pass1 loopFn).ueVarMap L :=
  ⟨(List.reverse_perm loopFn).symm, by decide,
    liveOut_order_independent loopFn loopFn.reverse (List.reverse_perm loopFn).symm
      (by decide) (pass1 loopFn).varKillMap (pass1 loopFn).ueVarMap⟩

end Liveness

/-! ## Value numbering -/

namespace ValueNumbering

open IR

theorem updateOperandTable_exprTable (st : State) (operand : Value) (val : Int) :
    (updateOperandTable st operand val).2.exprTable = st.exprTable := by
  unfold updateOperandTable
  cases st.operandTable operand <;> by_cases h : val > 0 <;> simp [h]

theorem updateExprTable_found (st : State) (expr : String) (n : Int)
    (h : st.exprTable expr = some n) : updateExprTable st expr = ((n, true), st) := by
  unfold updateExprTable
  rw [h]

theorem updateExprTable_self (st : State) (expr : String) :
    (updateExprTable st expr).2.exprTable expr = some (updateExprTable st expr).1.1 := by
  unfold updateExprTable
  cases h : st.exprTable expr with
  | none => simp
  | some n => simpa using h

theorem updateExprTable_keeps (st : State) (expr e : String) (n : Int)
    (h : st.exprTable e = some n) : (updateExprTable st expr).2.exprTable e = some n := by
  unfold updateExprTable
  cases hx : st.exprTable expr with
  | none =>
    have hne : e ≠ expr := by
      rintro rfl
      rw [h] at hx
      cases hx
    simp only [Function.update_noteq hne]
    exact h
  | some m => simpa using h

theorem operandNums_exprTable (st : State) (op0 op1 : Value) :
    (operandNums st op0 op1).2.exprTable = st.exprTable := by
  unfold operandNums
  simp only [updateOperandTable_exprTable]

/-- An entry of the expression table survives every instruction. -/
theorem visitInst_keeps (st : State) (inst : Instruction) (e : String) (n : Int)
    (h : st.exprTable e = some n) : (visitInst st inst).1.exprTable e = some n := by
  cases inst with
  | Load self op0 =>
    simp only [visitInst, updateOperandTable_exprTable]
    exact h
  | Store self op0 op1 =>
    simp only [visitInst, updateOperandTable_exprTable]
    exact h
  | BinaryOp self opcode op0 op1 =>
    simp only [visitInst, updateOperandTable_exprTable]
    apply updateExprTable_keeps
    rw [operandNums_exprTable]
    exact h
  | Other self => exact h

theorem visitInsts_fst (insts : List Instruction) (acc : State × List Record) :
    (visitInsts acc insts).1 = insts.foldl (fun st i => (visitInst st i).1) acc.1 := by
  unfold visitInsts
  induction insts generalizing acc with
  | nil => rfl
  | cons i rest ih =>
    rw [List.foldl_cons, List.foldl_cons, ih]

theorem foldl_visitInst_keeps (insts : List Instruction) (st : State) (e : String) (n : Int)
    (h : st.exprTable e = some n) :
    (insts.foldl (fun st i => (visitInst st i).1) st).exprTable e = some n := by
  induction insts generalizing st with
  | nil => exact h
  | cons i rest ih =>
    rw [List.foldl_cons]
    exact ih _ (visitInst_keeps st i e n h)

/-- After a binary operator its expression string is in the table, under the
number of its record. -/
theorem visitInst_binary_entry (st : State) (self : Value) (opcode : BinaryOps)
    (op0 op1 : Value) :
    (visitInst st (.BinaryOp self opcode op0 op1)).1.exprTable
        (exprString (operandNums st op0 op1).1.1 (opString opcode)
          (operandNums st op0 op1).1.2) =
      some (updateExprTable (operandNums st op0 op1).2
        (exprString (operandNums st op0 op1).1.1 (opString opcode)
          (operandNums st op0 op1).1.2)).1.1 := by
  simp only [visitInst, updateOperandTable_exprTable]
  exact updateExprTable_self _ _

/-- The pair property on the two states at which the instructions are
processed: equal operand numbers give equal expression strings, equal
destination numbers, and a redundant second record. -/
theorem binary_pair_records (pre mid : List Instruction)
    (s1 s2 : Value) (opcode : BinaryOps) (a1 b1 a2 b2 : Value)
    (hnums :
      (operandNums (visitInsts (State.fresh, []) pre).1 a1 b1).1 =
        (operandNums
          (visitInsts (State.fresh, []) (pre ++ Instruction.BinaryOp s1 opcode a1 b1 :: mid)).1
          a2 b2).1) :
    ∃ r1 r2 : Record,
      (visitInst (visitInsts (State.fresh, []) pre).1
          (Instruction.BinaryOp s1 opcode a1 b1)).2 = [r1] ∧
      (visitInst
          (visitInsts (State.fresh, []) (pre ++ Instruction.BinaryOp s1 opcode a1 b1 :: mid)).1
          (Instruction.BinaryOp s2 opcode a2 b2)).2 = [r2] ∧
      r1.sourceOrExpr = r2.sourceOrExpr ∧ r1.dstValueNum = r2.dstValueNum ∧
      r2.redundant = true := by
  have hentry := visitInst_binary_entry (visitInsts (State.fresh, []) pre).1 s1 opcode a1 b1
  have hst2 : (visitInsts (State.fresh, [])
      (pre ++ Instruction.BinaryOp s1 opcode a1 b1 :: mid)).1 =
      mid.foldl (fun st i => (visitInst st i).1)
        (visitInst (visitInsts (State.fresh, []) pre).1
          (Instruction.BinaryOp s1 opcode a1 b1)).1 := by
    simp only [visitInsts_fst, List.foldl_append, List.foldl_cons]
  have hkeep := foldl_visitInst_keeps mid _ _ _ hentry
  rw [← hst2, hnums, ← operandNums_exprTable _ a2 b2] at hkeep
  have hfound := updateExprTable_found _ _ _ hkeep
  refine ⟨_, _, rfl, rfl, ?_, ?_, ?_⟩
  · simp only [hnums]
  · simp only [← hnums] at hfound
    simp only [← hnums, hfound]
  · simp only [hfound]

theorem visitor_eq_visitInsts (fn : Function) (acc : State × List Record) :
    fn.foldl (fun a bb => visitInsts a bb.insts) acc =
      visitInsts acc (fn.map BasicBlock.insts).flatten := by
  induction fn generalizing acc with
  | nil => rfl
  | cons b rest ih =>
    rw [List.foldl_cons, ih]
    simp only [visitInsts, List.map_cons, List.flatten_cons, List.foldl_append]

/-- C10 (Scenario A): from the fresh state, the block `[x = load a;
y = add x, x; z = add x, x]` (four distinct values) emits, in this order, the
record `1 = 1` for `x`, the record `2 = 1 add 1` not marked redundant for `y`
and the record `2 = 1 add 1` marked redundant for `z`; afterwards `a` and `x`
have number 1, `y` and `z` have number 2, and the counter is 3. -/
theorem scenarioA (addr : Value) (succs : List Value) (a x y z : Value)
    (hxa : x ≠ a) (hya : y ≠ a) (hyx : y ≠ x) (hza : z ≠ a) (hzx : z ≠ x) (hzy : z ≠ y) :
    (visitor State.fresh
        [⟨addr, [.Load x a, .BinaryOp y .Add x x, .BinaryOp z .Add x x], succs⟩]).2 =
      [⟨.Load x a, 1, "1", false⟩, ⟨.BinaryOp y .Add x x, 2, "1 add 1", false⟩,
        ⟨.BinaryOp z .Add x x, 2, "1 add 1", true⟩] ∧
    (visitInst State.fresh (.Load x a)).1.operandTable a = some 1 ∧
    (visitor State.fresh
        [⟨addr, [.Load x a, .BinaryOp y .Add x x, .BinaryOp z .Add x x], succs⟩]).1.operandTable a
      = some 1 ∧
    (visitor State.fresh
        [⟨addr, [.Load x a, .BinaryOp y .Add x x, .BinaryOp z .Add x x], succs⟩]).1.operandTable x
      = some 1 ∧
    (visitor State.fresh
        [⟨addr, [.Load x a, .BinaryOp y .Add x x, .BinaryOp z .Add x x], succs⟩]).1.operandTable y
      = some 2 ∧
    (visitor State.fresh
        [⟨addr, [.Load x a, .BinaryOp y .Add x x, .BinaryOp z .Add x x], succs⟩]).1.operandTable z
      = some 2 ∧
    (visitor State.fresh
        [⟨addr, [.Load x a, .BinaryOp y .Add x x, .BinaryOp z .Add x x], succs⟩]).1.valueNum = 3 := by
  have e1 : exprString 1 "add" 1 = "1 add 1" := by decide
  have e2 : to_string 1 = "1" := by decide
  simp [visitor, visitInsts, visitInst, operandNums, updateOperandTable, updateExprTable,
    State.fresh, noVal, Function.update, Instruction.self, opString, hxa, hya, hyx, hza, hzx,
    hzy, hxa.symm, hya.symm, hyx.symm, hza.symm, hzx.symm, hzy.symm, e1, e2]

theorem visitInsts_snd (insts : List Instruction) (acc : State × List Record) :
    (visitInsts acc insts).2 = acc.2 ++ (visitInsts (acc.1, []) insts).2 := by
  induction insts generalizing acc with
  | nil => simp [visitInsts]
  | cons i rest ih =>
    have h1 : visitInsts acc (i :: rest) =
        visitInsts ((visitInst acc.1 i).1, acc.2 ++ (visitInst acc.1 i).2) rest := rfl
    have h2 : visitInsts (acc.1, []) (i :: rest) =
        visitInsts ((visitInst acc.1 i).1, [] ++ (visitInst acc.1 i).2) rest := rfl
    rw [h1, h2, ih, ih (_, [] ++ _)]
    simp

theorem visitInsts_cons_snd (st : State) (i : Instruction) (rest : List Instruction) :
    (visitInsts (st, []) (i :: rest)).2 =
      (visitInst st i).2 ++ (visitInsts ((visitInst st i).1, []) rest).2 := by
  have h : visitInsts (st, []) (i :: rest) =
      visitInsts ((visitInst st i).1, [] ++ (visitInst st i).2) rest := rfl
  rw [h, visitInsts_snd]
  simp

theorem visitInsts_append_snd (st : State) (xs ys : List Instruction) :
    (visitInsts (st, []) (xs ++ ys)).2 =
      (visitInsts (st, []) xs).2 ++ (visitInsts ((visitInsts (st, []) xs).1, []) ys).2 := by
  have h : visitInsts (st, []) (xs ++ ys) = visitInsts (visitInsts (st, []) xs) ys := by
    simp only [visitInsts, List.foldl_append]
  rw [h, visitInsts_snd]

theorem visitInsts_append_cons_fst (st : State) (xs : List Instruction) (i : Instruction)
    (ys : List Instruction) :
    (visitInsts (st, []) (xs ++ i :: ys)).1 =
      (visitInsts ((visitInst (visitInsts (st, []) xs).1 i).1, []) ys).1 := by
  simp only [visitInsts_fst, List.foldl_append, List.foldl_cons]

/-- C9: let the instructions of a function, in the order `visitor` processes
them from the fresh state, be `pre`, a binary operator `i1`, `mid`, a binary
operator `i2` of the same opcode, `post`. If the left and right operand numbers
looked up when `i2` is processed equal those looked up when `i1` was processed,
then the report is the records of `pre`, the record `r1` of `i1`, the records
of `mid`, the record `r2` of `i2`, the records of `post`, where `r1` and `r2`
carry the same expression string and the same destination number and `r2` is
marked redundant, whatever `mid` is. -/
theorem same_operand_numbers_redundant (fn : Function) (pre mid post : List Instruction)
    (s1 s2 : Value) (opcode : BinaryOps) (a1 b1 a2 b2 : Value)
    (hrun : (fn.map BasicBlock.insts).flatten =
      pre ++ Instruction.BinaryOp s1 opcode a1 b1 ::
        (mid ++ Instruction.BinaryOp s2 opcode a2 b2 :: post))
    (hnums :
      (operandNums (visitInsts (State.fresh, []) pre).1 a1 b1).1 =
        (operandNums
          (visitInsts (State.fresh, []) (pre ++ Instruction.BinaryOp s1 opcode a1 b1 :: mid)).1
          a2 b2).1) :
    ∃ r1 r2 : Record,
      (visitor State.fresh fn).2 =
        (visitInsts (State.fresh, []) pre).2 ++ r1 ::
          ((visitInsts
              ((visitInst (visitInsts (State.fresh, []) pre).1
                (Instruction.BinaryOp s1 opcode a1 b1)).1, []) mid).2 ++ r2 ::
            (visitInsts
              ((visitInst
                (visitInsts (State.fresh, [])
                  (pre ++ Instruction.BinaryOp s1 opcode a1 b1 :: mid)).1
                (Instruction.BinaryOp s2 opcode a2 b2)).1, []) post).2) ∧
      r1.inst = Instruction.BinaryOp s1 opcode a1 b1 ∧
      r2.inst = Instruction.BinaryOp s2 opcode a2 b2 ∧
      r1.sourceOrExpr = r2.sourceOrExpr ∧ r1.dstValueNum = r2.dstValueNum ∧
      r2.redundant = true := by
  obtain ⟨r1, r2, h1, h2, h3, h4, h5⟩ :=
    binary_pair_records pre mid s1 s2 opcode a1 b1 a2 b2 hnums
  refine ⟨r1, r2, ?_, ?_, ?_, h3, h4, h5⟩
  · unfold visitor
    rw [visitor_eq_visitInsts, hrun, visitInsts_append_snd, visitInsts_cons_snd, h1,
      visitInsts_append_snd, visitInsts_cons_snd, ← visitInsts_append_cons_fst, h2]
    simp
  · have := h1
    simp only [visitInst, List.cons.injEq, and_true] at this
    rw [← this]
  · have := h2
    simp only [visitInst, List.cons.injEq, and_true] at this
    rw [← this]

/-- Witness of C9: `x = load a; y = add x, x; store y into q; z = add x, x`. -/
theorem same_operand_numbers_redundant_witness :
    ∃ r1 r2 : Record,
      (visitor State.fresh
        [⟨100, [Instruction.Load 11 10, Instruction.BinaryOp 12 .Add 11 11,
          Instruction.Store 20 12 30, Instruction.BinaryOp 13 .Add 11 11], []⟩]).2 =
        (visitInsts (State.fresh, []) [Instruction.Load 11 10]).2 ++ r1 ::
          ((visitInsts
              ((visitInst (visitInsts (State.fresh, []) [Instruction.Load 11 10]).1
                (Instruction.BinaryOp 12 .Add 11 11)).1, [])
              [Instruction.Store 20 12 30]).2 ++ r2 ::
            (visitInsts
              ((visitInst
                (visitInsts (State.fresh, [])
                  ([Instruction.Load 11 10] ++
                    Instruction.BinaryOp 12 .Add 11 11 :: [Instruction.Store 20 12 30])).1
                (Instruction.BinaryOp 13 .Add 11 11)).1, []) []).2) ∧
      r1.inst = Instruction.BinaryOp 12 .Add 11 11 ∧
      r2.inst = Instruction.BinaryOp 13 .Add 11 11 ∧
      r1.sourceOrExpr = r2.sourceOrExpr ∧ r1.dstValueNum = r2.dstValueNum ∧
      r2.redundant = true :=
  same_operand_numbers_redundant
    [⟨100, [Instruction.Load 11 10, Instruction.BinaryOp 12 .Add 11 11,
      Instruction.Store 20 12 30, Instruction.BinaryOp 13 .Add 11 11], []⟩]
    [Instruction.Load 11 10] [Instruction.Store 20 12 30] [] 12 13 .Add 11 11 11 11
    (by decide) (by decide)

/-- Witness of C10 at the addresses `a = 10`, `x = 11`, `y = 12`, `z = 13`. -/
theorem scenarioA_witness :
    (visitor State.fresh
        [⟨100, [.Load 11 10, .BinaryOp 12 .Add 11 11, .BinaryOp 13 .Add 11 11], []⟩]).2 =
      [⟨.Load 11 10, 1, "1", false⟩, ⟨.BinaryOp 12 .Add 11 11, 2, "1 add 1", false⟩,
        ⟨.BinaryOp 13 .Add 11 11, 2, "1 add 1", true⟩] :=
  (scenarioA 100 [] 10 11 12 13 (by decide) (by decide) (by decide) (by decide) (by decide)
    (by decide)).1

/-! ## Value numbering: the two table functions -/

theorem updateOperandTable_noVal_some (st : State) (v : Value) (n : Int)
    (h : st.operandTable v = some n) : updateOperandTable st v noVal = ((n, true), st) := by
  unfold updateOperandTable
  rw [h]
  simp [noVal]

theorem updateOperandTable_noVal_none (st : State) (v : Value)
    (h : st.operandTable v = none) :
    updateOperandTable st v noVal =
      ((st.valueNum, false),
        { st with
          operandTable := Function.update st.operandTable v (some st.valueNum)
          valueNum := st.valueNum + 1 }) := by
  unfold updateOperandTable
  rw [h]
  simp [noVal]

theorem updateOperandTable_pos (st : State) (v : Value) (n : Int) (hn : 0 < n) :
    updateOperandTable st v n =
      ((n, (st.operandTable v).isSome),
        { st with operandTable := Function.update st.operandTable v (some n) }) := by
  unfold updateOperandTable
  cases h : st.operandTable v <;> simp [hn]

theorem updateExprTable_none (st : State) (e : String) (h : st.exprTable e = none) :
    updateExprTable st e =
      ((st.valueNum, false),
        { st with
          exprTable := Function.update st.exprTable e (some st.valueNum)
          valueNum := st.valueNum + 1 }) := by
  unfold updateExprTable
  rw [h]

/-- After a lookup the value is in the table under the number returned. -/
theorem updateOperandTable_noVal_entry (st : State) (v : Value) :
    (updateOperandTable st v noVal).2.operandTable v =
      some (updateOperandTable st v noVal).1.1 := by
  cases h : st.operandTable v with
  | none => simp [updateOperandTable_noVal_none st v h]
  | some n => simp [updateOperandTable_noVal_some st v n h, h]

theorem updateOperandTable_other (st : State) (v w : Value) (val : Int) (hw : w ≠ v) :
    (updateOperandTable st v val).2.operandTable w = st.operandTable w := by
  unfold updateOperandTable
  cases st.operandTable v <;> by_cases h : val > 0 <;> simp [h, Function.update_noteq hw]

theorem updateExprTable_operandTable (st : State) (e : String) :
    (updateExprTable st e).2.operandTable = st.operandTable := by
  unfold updateExprTable
  cases st.exprTable e <;> rfl

theorem Call.run_keeps (st : State) (c : Call) (v : Value) (n : Int)
    (hc : ∀ val, c ≠ Call.assign v val) (h : st.operandTable v = some n) :
    (c.run st).operandTable v = some n := by
  cases c with
  | lookup w =>
    by_cases hw : w = v
    · subst hw
      simp only [Call.run, updateOperandTable_noVal_some st w n h]
      exact h
    · simp only [Call.run]
      rw [updateOperandTable_other st w v noVal (Ne.symm hw)]
      exact h
  | assign w val =>
    have hw : w ≠ v := by
      rintro rfl
      exact hc val rfl
    simp only [Call.run]
    rw [updateOperandTable_other st w v val (Ne.symm hw)]
    exact h
  | expr e =>
    simp only [Call.run, updateExprTable_operandTable]
    exact h

theorem foldl_run_keeps (calls : List Call) (st : State) (v : Value) (n : Int)
    (hc : ∀ val, Call.assign v val ∉ calls) (h : st.operandTable v = some n) :
    (calls.foldl Call.run st).operandTable v = some n := by
  induction calls generalizing st with
  | nil => exact h
  | cons c rest ih =>
    rw [List.foldl_cons]
    apply ih
    · intro val hmem
      exact hc val (List.mem_cons_of_mem _ hmem)
    · apply Call.run_keeps st c v n _ h
      intro val heq
      exact hc val (heq ▸ List.mem_cons_self _ _)

/-- C12: `updateOperandTable` called without an explicit number. If `v` is in
the operand table it returns the stored number with `exists = true` and leaves
the globals as they are; otherwise, the counter `c` being below `INT_MAX` so
that `valueNum++` does not overflow, it returns `c` with `exists = false`,
stores `(v, c)`, sets the counter to `c + 1`, which is again an `int`, and
changes no other entry of either table. -/
theorem updateOperandTable_without_number (st : State) (v : Value) :
    (∀ n, st.operandTable v = some n → updateOperandTable st v noVal = ((n, true), st)) ∧
      (st.operandTable v = none → st.valueNum < INT_MAX →
        (updateOperandTable st v noVal).1 = (st.valueNum, false) ∧
        (updateOperandTable st v noVal).2.operandTable v = some st.valueNum ∧
        (updateOperandTable st v noVal).2.valueNum = st.valueNum + 1 ∧
        (updateOperandTable st v noVal).2.valueNum ≤ INT_MAX ∧
        (∀ w, w ≠ v → (updateOperandTable st v noVal).2.operandTable w = st.operandTable w) ∧
        (updateOperandTable st v noVal).2.exprTable = st.exprTable) := by
  refine ⟨fun n h => updateOperandTable_noVal_some st v n h, ?_⟩
  intro h hc
  refine ⟨?_, ?_, ?_, ?_, ?_, updateOperandTable_exprTable st v noVal⟩
  · rw [updateOperandTable_noVal_none st v h]
  · rw [updateOperandTable_noVal_none st v h]
    simp
  · rw [updateOperandTable_noVal_none st v h]
  · rw [updateOperandTable_noVal_none st v h]
    simp only
    omega
  · intro w hw
    exact updateOperandTable_other st v w noVal hw

/-- Witness of C12: a first lookup of the value `10` in the fresh state. -/
theorem updateOperandTable_without_number_witness :
    (updateOperandTable State.fresh 10 noVal).1 = (State.fresh.valueNum, false) ∧
      (updateOperandTable State.fresh 10 noVal).2.operandTable 10 = some State.fresh.valueNum ∧
      (updateOperandTable State.fresh 10 noVal).2.valueNum = State.fresh.valueNum + 1 ∧
      (updateOperandTable State.fresh 10 noVal).2.valueNum ≤ INT_MAX ∧
      (∀ w, w ≠ 10 →
        (updateOperandTable State.fresh 10 noVal).2.operandTable w =
          State.fresh.operandTable w) ∧
      (updateOperandTable State.fresh 10 noVal).2.exprTable = State.fresh.exprTable :=
  (updateOperandTable_without_number State.fresh 10).2 rfl (by decide)

/-- C13: `updateOperandTable` called with an explicit number `n >= 1`. It
returns `n`, with `exists = true` when `v` was in the operand table and
`exists = false` when it was not; afterwards `v` has the number `n`, the
counter is unchanged and no other entry of either table has changed. -/
theorem updateOperandTable_with_number (st : State) (v : Value) (n : Int) (hn : 1 ≤ n) :
    (∀ old, st.operandTable v = some old → (updateOperandTable st v n).1 = (n, true)) ∧
      (st.operandTable v = none → (updateOperandTable st v n).1 = (n, false)) ∧
      (updateOperandTable st v n).2.operandTable v = some n ∧
      (updateOperandTable st v n).2.valueNum = st.valueNum ∧
      (∀ w, w ≠ v → (updateOperandTable st v n).2.operandTable w = st.operandTable w) ∧
      (updateOperandTable st v n).2.exprTable = st.exprTable := by
  have hpos : 0 < n := by omega
  refine ⟨?_, ?_, ?_, ?_, ?_, updateOperandTable_exprTable st v n⟩
  · intro old h
    rw [updateOperandTable_pos st v n hpos, h]
    rfl
  · intro h
    rw [updateOperandTable_pos st v n hpos, h]
    rfl
  · rw [updateOperandTable_pos st v n hpos]
    simp
  · rw [updateOperandTable_pos st v n hpos]
  · intro w hw
    exact updateOperandTable_other st v w n hw

/-- Witness of C13: the value `10`, numbered 1 by a lookup, is given the
explicit number 7. -/
theorem updateOperandTable_with_number_witness :
    (updateOperandTable (updateOperandTable State.fresh 10 noVal).2 10 7).1 = (7, true) ∧
      (updateOperandTable (updateOperandTable State.fresh 10 noVal).2 10 7).2.operandTable 10 =
        some 7 ∧
      (updateOperandTable (updateOperandTable State.fresh 10 noVal).2 10 7).2.valueNum = 2 :=
  ⟨(updateOperandTable_with_number (updateOperandTable State.fresh 10 noVal).2 10 7
      (by decide)).1 1 (by decide),
    (updateOperandTable_with_number (updateOperandTable State.fresh 10 noVal).2 10 7
      (by decide)).2.2.1,
    (updateOperandTable_with_number (updateOperandTable State.fresh 10 noVal).2 10 7
      (by decide)).2.2.2.1⟩

/-- C14: `updateExprTable`. If `e` is in the expression table it returns the
stored number with `exists = true` and leaves the globals as they are;
otherwise, the counter `c` being below `INT_MAX` so that `valueNum++` does not
overflow, it returns `c` with `exists = false`, stores `(e, c)`, leaves the
operand table and every other expression alone and sets the counter to `c + 1`,
which is again an `int`. The counter is the one `updateOperandTable` draws
from: when `c + 1` is below `INT_MAX` as well, a new value looked up next gets
`c + 1`, and a new expression entered right after a new value gets the number
following that of the value. -/
theorem updateExprTable_shared_counter (st : State) (e : String) :
    (∀ n, st.exprTable e = some n → updateExprTable st e = ((n, true), st)) ∧
      (st.exprTable e = none → st.valueNum < INT_MAX →
        (updateExprTable st e).1 = (st.valueNum, false) ∧
        (updateExprTable st e).2.exprTable e = some st.valueNum ∧
        (∀ x, x ≠ e → (updateExprTable st e).2.exprTable x = st.exprTable x) ∧
        (updateExprTable st e).2.valueNum = st.valueNum + 1 ∧
        (updateExprTable st e).2.valueNum ≤ INT_MAX ∧
        (updateExprTable st e).2.operandTable = st.operandTable ∧
        (st.valueNum + 1 < INT_MAX →
          (∀ v, st.operandTable v = none →
            (updateOperandTable (updateExprTable st e).2 v noVal).1 =
              (st.valueNum + 1, false)) ∧
          (∀ v, st.operandTable v = none →
            (updateExprTable (updateOperandTable st v noVal).2 e).1 =
              (st.valueNum + 1, false)))) := by
  refine ⟨fun n h => updateExprTable_found st e n h, ?_⟩
  intro h hc
  refine ⟨?_, ?_, ?_, ?_, ?_, updateExprTable_operandTable st e, ?_⟩
  · rw [updateExprTable_none st e h]
  · rw [updateExprTable_none st e h]
    simp
  · intro x hx
    rw [updateExprTable_none st e h]
    simp [Function.update_noteq hx]
  · rw [updateExprTable_none st e h]
  · rw [updateExprTable_none st e h]
    simp only
    omega
  · intro _
    constructor
    · intro v hv
      rw [updateOperandTable_noVal_none _ v (by rw [updateExprTable_operandTable]; exact hv),
        updateExprTable_none st e h]
    · intro v hv
      rw [updateExprTable_none _ e (by rw [updateOperandTable_exprTable]; exact h),
        updateOperandTable_noVal_none st v hv]

/-- Witness of C14: a first expression entered in the fresh state. -/
theorem updateExprTable_shared_counter_witness :
    (updateExprTable State.fresh "1 add 1").1 = (1, false) ∧
      (updateOperandTable (updateExprTable State.fresh "1 add 1").2 10 noVal).1 = (2, false) :=
  ⟨((updateExprTable_shared_counter State.fresh "1 add 1").2 rfl (by decide)).1,
    (((updateExprTable_shared_counter State.fresh "1 add 1").2 rfl
      (by decide)).2.2.2.2.2.2 (by decide)).1 10 rfl⟩

/-- C16: a value looked up twice in a row gets the same number both times, and
the second lookup reports `exists = true` and changes nothing; the same holds
when any calls of the two table functions come in between, none of them giving
`v` itself an explicit number. -/
theorem lookup_stable (st : State) (v : Value) (calls : List Call)
    (hcalls : ∀ val, Call.assign v val ∉ calls) :
    updateOperandTable (updateOperandTable st v noVal).2 v noVal =
        (((updateOperandTable st v noVal).1.1, true), (updateOperandTable st v noVal).2) ∧
      updateOperandTable (calls.foldl Call.run (updateOperandTable st v noVal).2) v noVal =
        (((updateOperandTable st v noVal).1.1, true),
          calls.foldl Call.run (updateOperandTable st v noVal).2) := by
  have hentry := updateOperandTable_noVal_entry st v
  exact ⟨updateOperandTable_noVal_some _ v _ hentry,
    updateOperandTable_noVal_some _ v _ (foldl_run_keeps calls _ v _ hcalls hentry)⟩

/-- Witness of C16: between the two lookups of `10`, another value is looked
up, a third is given a number, and an expression is entered. -/
theorem lookup_stable_witness :
    updateOperandTable
        ([Call.lookup 11, Call.assign 12 1, Call.expr "1 add 2"].foldl Call.run
          (updateOperandTable State.fresh 10 noVal).2) 10 noVal =
      (((updateOperandTable State.fresh 10 noVal).1.1, true),
        [Call.lookup 11, Call.assign 12 1, Call.expr "1 add 2"].foldl Call.run
          (updateOperandTable State.fresh 10 noVal).2) :=
  (lookup_stable State.fresh 10 [Call.lookup 11, Call.assign 12 1, Call.expr "1 add 2"]
    (by simp)).2

/-! ## Value numbering: the invariant of the reachable states -/

theorem numbered_fresh : Numbered State.fresh := by
  refine ⟨by decide, ?_, ?_, ?_⟩
  · intro v n h
    simp [State.fresh] at h
  · intro e n h
    simp [State.fresh] at h
  · intro e1 e2 n h
    simp [State.fresh] at h

theorem Numbered.lookup {st : State} (h : Numbered st) (v : Value) :
    Numbered (updateOperandTable st v noVal).2 ∧
      1 ≤ (updateOperandTable st v noVal).1.1 ∧
      (updateOperandTable st v noVal).1.1 < (updateOperandTable st v noVal).2.valueNum := by
  cases hv : st.operandTable v with
  | some n =>
    rw [updateOperandTable_noVal_some st v n hv]
    exact ⟨h, h.operand_range v n hv⟩
  | none =>
    rw [updateOperandTable_noVal_none st v hv]
    have hc := h.counter_pos
    refine ⟨⟨?_, ?_, ?_, ?_⟩, ?_, ?_⟩
    · simp only
      omega
    · intro w n hw
      simp only at hw ⊢
      by_cases hwv : w = v
      · subst hwv
        simp only [Function.update_same, Option.some.injEq] at hw
        omega
      · rw [Function.update_noteq hwv] at hw
        have := h.operand_range w n hw
        omega
    · intro e n he
      simp only at he ⊢
      have := h.expr_range e n he
      omega
    · exact h.expr_inj
    · exact hc
    · simp only
      omega

theorem Numbered.assign {st : State} (h : Numbered st) (v : Value) (n : Int)
    (h1 : 1 ≤ n) (h2 : n < st.valueNum) : Numbered (updateOperandTable st v n).2 := by
  rw [updateOperandTable_pos st v n (by omega)]
  refine ⟨h.counter_pos, ?_, h.expr_range, h.expr_inj⟩
  intro w m hw
  simp only at hw ⊢
  by_cases hwv : w = v
  · subst hwv
    simp only [Function.update_same, Option.some.injEq] at hw
    omega
  · rw [Function.update_noteq hwv] at hw
    exact h.operand_range w m hw

theorem Numbered.expr {st : State} (h : Numbered st) (e : String) :
    Numbered (updateExprTable st e).2 ∧
      1 ≤ (updateExprTable st e).1.1 ∧
      (updateExprTable st e).1.1 < (updateExprTable st e).2.valueNum := by
  cases he : st.exprTable e with
  | some n =>
    rw [updateExprTable_found st e n he]
    exact ⟨h, h.expr_range e n he⟩
  | none =>
    rw [updateExprTable_none st e he]
    have hc := h.counter_pos
    refine ⟨⟨?_, ?_, ?_, ?_⟩, ?_, ?_⟩
    · simp only
      omega
    · intro w n hw
      simp only at hw ⊢
      have := h.operand_range w n hw
      omega
    · intro x n hx
      simp only at hx ⊢
      by_cases hxe : x = e
      · subst hxe
        simp only [Function.update_same, Option.some.injEq] at hx
        omega
      · rw [Function.update_noteq hxe] at hx
        have := h.expr_range x n hx
        omega
    · intro e1 e2 n h1 h2
      simp only at h1 h2
      by_cases h1e : e1 = e <;> by_cases h2e : e2 = e
      · rw [h1e, h2e]
      · subst h1e
        simp only [Function.update_same, Option.some.injEq] at h1
        rw [Function.update_noteq h2e] at h2
        have := h.expr_range e2 n h2
        omega
      · subst h2e
        simp only [Function.update_same, Option.some.injEq] at h2
        rw [Function.update_noteq h1e] at h1
        have := h.expr_range e1 n h1
        omega
      · rw [Function.update_noteq h1e] at h1
        rw [Function.update_noteq h2e] at h2
        exact h.expr_inj e1 e2 n h1 h2
    · exact hc
    · simp only
      omega

theorem Numbered.operandNums {st : State} (h : Numbered st) (op0 op1 : Value) :
    Numbered (operandNums st op0 op1).2 := by
  unfold ValueNumbering.operandNums
  exact ((h.lookup op0).1.lookup op1).1

theorem Numbered.afterInst {st : State} (h : Numbered st) (inst : Instruction) :
    Numbered (visitInst st inst).1 := by
  cases inst with
  | Load self op0 =>
    obtain ⟨h1, h2, h3⟩ := h.lookup op0
    exact h1.assign _ _ h2 h3
  | Store self op0 op1 =>
    obtain ⟨h1, h2, h3⟩ := h.lookup op0
    exact h1.assign _ _ h2 h3
  | BinaryOp self opcode op0 op1 =>
    obtain ⟨h1, h2, h3⟩ := (h.operandNums op0 op1).expr
      (exprString (ValueNumbering.operandNums st op0 op1).1.1 (opString opcode)
        (ValueNumbering.operandNums st op0 op1).1.2)
    exact h1.assign _ _ h2 h3
  | Other self => exact h

theorem numbered_foldl (insts : List Instruction) (st : State) (h : Numbered st) :
    Numbered (insts.foldl (fun st i => (visitInst st i).1) st) := by
  induction insts generalizing st with
  | nil => exact h
  | cons i rest ih =>
    rw [List.foldl_cons]
    exact ih _ (h.afterInst i)

theorem numbered_stateAfter (insts : List Instruction) : Numbered (stateAfter insts) := by
  unfold stateAfter
  rw [visitInsts_fst]
  exact numbered_foldl insts _ numbered_fresh

/-- C15: in the state reached from the fresh state by processing any sequence
of instructions, every number in the operand table and every number in the
expression table is at least 1 and below the counter, two different expression
strings have different numbers, and the number drawn for a new value or for a
new expression (the counter) is none of the numbers stored in either table. -/
theorem reachable_numbers_below_counter (insts : List Instruction) :
    (∀ v n, (stateAfter insts).operandTable v = some n →
        1 ≤ n ∧ n < (stateAfter insts).valueNum) ∧
      (∀ e n, (stateAfter insts).exprTable e = some n →
        1 ≤ n ∧ n < (stateAfter insts).valueNum) ∧
      (∀ e1 e2 n1 n2, e1 ≠ e2 → (stateAfter insts).exprTable e1 = some n1 →
        (stateAfter insts).exprTable e2 = some n2 → n1 ≠ n2) ∧
      (∀ v, (stateAfter insts).operandTable v = none →
        (∀ w n, (stateAfter insts).operandTable w = some n →
          n ≠ (updateOperandTable (stateAfter insts) v noVal).1.1) ∧
        (∀ e n, (stateAfter insts).exprTable e = some n →
          n ≠ (updateOperandTable (stateAfter insts) v noVal).1.1)) ∧
      (∀ x, (stateAfter insts).exprTable x = none →
        (∀ w n, (stateAfter insts).operandTable w = some n →
          n ≠ (updateExprTable (stateAfter insts) x).1.1) ∧
        (∀ e n, (stateAfter insts).exprTable e = some n →
          n ≠ (updateExprTable (stateAfter insts) x).1.1)) := by
  have h := numbered_stateAfter insts
  refine ⟨h.operand_range, h.expr_range, ?_, ?_, ?_⟩
  · intro e1 e2 n1 n2 hne h1 h2 heq
    subst heq
    exact hne (h.expr_inj e1 e2 n1 h1 h2)
  · intro v hv
    rw [updateOperandTable_noVal_none _ v hv]
    constructor
    · intro w n hw
      have := h.operand_range w n hw
      simp only
      omega
    · intro e n he
      have := h.expr_range e n he
      simp only
      omega
  · intro x hx
    rw [updateExprTable_none _ x hx]
    constructor
    · intro w n hw
      have := h.operand_range w n hw
      simp only
      omega
    · intro e n he
      have := h.expr_range e n he
      simp only
      omega

/-- Witness of C15 after `x = load a; y = add x, x`: the stored numbers are 1
and 2, the counter is 3. -/
theorem reachable_numbers_below_counter_witness :
    (stateAfter [.Load 11 10, .BinaryOp 12 .Add 11 11]).operandTable 12 = some 2 ∧
      (1 : Int) ≤ 2 ∧ 2 < (stateAfter [.Load 11 10, .BinaryOp 12 .Add 11 11]).valueNum :=
  ⟨by decide,
    (reachable_numbers_below_counter [.Load 11 10, .BinaryOp 12 .Add 11 11]).1 12 2
      (by decide)⟩

/-- C11: in a state reached from the fresh state, a `Load` emits one record
whose destination number is the number of operand 0 (the number a lookup of
operand 0 returns: the stored one, if there is one), and afterwards both the
load itself and operand 0 have that number; a `Store` emits one record whose
destination number is the number of operand 0, and afterwards both operand 1,
whatever number it had, and operand 0 have that number. -/
theorem load_store_alias (insts : List Instruction) (st : State)
    (hst : st = stateAfter insts) (self op0 op1 : Value) :
    (∀ n, st.operandTable op0 = some n → (updateOperandTable st op0 noVal).1.1 = n) ∧
      (∃ r, (visitInst st (.Load self op0)).2 = [r] ∧
        r.dstValueNum = (updateOperandTable st op0 noVal).1.1 ∧
        (visitInst st (.Load self op0)).1.operandTable self = some r.dstValueNum ∧
        (visitInst st (.Load self op0)).1.operandTable op0 =
          some (updateOperandTable st op0 noVal).1.1) ∧
      (∃ r, (visitInst st (.Store self op0 op1)).2 = [r] ∧
        r.dstValueNum = (updateOperandTable st op0 noVal).1.1 ∧
        (visitInst st (.Store self op0 op1)).1.operandTable op1 = some r.dstValueNum ∧
        (visitInst st (.Store self op0 op1)).1.operandTable op0 =
          some (updateOperandTable st op0 noVal).1.1) := by
  have h : Numbered st := hst ▸ numbered_stateAfter insts
  obtain ⟨_, h2, _⟩ := h.lookup op0
  have hpos : 0 < (updateOperandTable st op0 noVal).1.1 := by omega
  have hentry := updateOperandTable_noVal_entry st op0
  have key : ∀ d : Value,
      (updateOperandTable (updateOperandTable st op0 noVal).2 d
          (updateOperandTable st op0 noVal).1.1).1.1 = (updateOperandTable st op0 noVal).1.1 ∧
      (updateOperandTable (updateOperandTable st op0 noVal).2 d
          (updateOperandTable st op0 noVal).1.1).2.operandTable d =
        some (updateOperandTable st op0 noVal).1.1 ∧
      (updateOperandTable (updateOperandTable st op0 noVal).2 d
          (updateOperandTable st op0 noVal).1.1).2.operandTable op0 =
        some (updateOperandTable st op0 noVal).1.1 := by
    intro d
    refine ⟨?_, ?_, ?_⟩
    · rw [updateOperandTable_pos _ d _ hpos]
    · rw [updateOperandTable_pos _ d _ hpos]
      simp
    · by_cases hd : op0 = d
      · subst hd
        rw [updateOperandTable_pos _ op0 _ hpos]
        simp
      · rw [updateOperandTable_other _ d op0 _ hd]
        exact hentry
  refine ⟨?_, ?_, ?_⟩
  · intro n hn
    rw [updateOperandTable_noVal_some st op0 n hn]
  · obtain ⟨k1, k2, k3⟩ := key self
    exact ⟨_, rfl, k1, by simpa [visitInst, Instruction.self, k1] using k2,
      by simpa [visitInst, Instruction.self] using k3⟩
  · obtain ⟨k1, k2, k3⟩ := key op1
    exact ⟨_, rfl, k1, by simpa [visitInst, k1] using k2, by simpa [visitInst] using k3⟩

/-- Witness of C11: after `x = load a`, the instruction `store x into q`. -/
theorem load_store_alias_witness :
    ∃ r, (visitInst (stateAfter [.Load 11 10]) (.Store 20 11 30)).2 = [r] ∧
      r.dstValueNum = (updateOperandTable (stateAfter [.Load 11 10]) 11 noVal).1.1 ∧
      (visitInst (stateAfter [.Load 11 10]) (.Store 20 11 30)).1.operandTable 30 =
        some r.dstValueNum ∧
      (visitInst (stateAfter [.Load 11 10]) (.Store 20 11 30)).1.operandTable 11 =
        some (updateOperandTable (stateAfter [.Load 11 10]) 11 noVal).1.1 :=
  (load_store_alias [.Load 11 10] (stateAfter [.Load 11 10]) rfl 20 11 30).2.2

/-! ## Value numbering: what the run remembers -/

/-- C17: the code on a binary operator outside the five of the `switch`. From
the fresh state `r = urem a, b` is not ignored: it emits the record
`3 = 1  2` (empty mnemonic), numbers `a`, `b` and `r`, enters the string in
the expression table and moves the counter to 4; a following `xor a, b` is then
reported redundant. An instruction that is no `Load`, no `Store` and no binary
operator is ignored. -/
theorem unhandled_binary_operator_not_ignored :
    (visitInst State.fresh (.BinaryOp 12 .URem 10 11)).2 =
        [⟨.BinaryOp 12 .URem 10 11, 3, "1  2", false⟩] ∧
      (visitInst State.fresh (.BinaryOp 12 .URem 10 11)).1.valueNum = 4 ∧
      (visitInst State.fresh (.BinaryOp 12 .URem 10 11)).1.operandTable 10 = some 1 ∧
      (visitInst State.fresh (.BinaryOp 12 .URem 10 11)).1.operandTable 11 = some 2 ∧
      (visitInst State.fresh (.BinaryOp 12 .URem 10 11)).1.operandTable 12 = some 3 ∧
      (visitInst State.fresh (.BinaryOp 12 .URem 10 11)).1.exprTable "1  2" = some 3 ∧
      (visitor State.fresh
          [⟨100, [.BinaryOp 12 .URem 10 11, .BinaryOp 13 .Xor 10 11], []⟩]).2 =
        [⟨.BinaryOp 12 .URem 10 11, 3, "1  2", false⟩,
          ⟨.BinaryOp 13 .Xor 10 11, 3, "1  2", true⟩] ∧
      ∀ (st : State) (self : Value), visitInst st (.Other self) = (st, []) := by
  refine ⟨by decide, by decide, by decide, by decide, by decide, by decide, by decide, ?_⟩
  intro st self
  rfl

theorem visitInsts_other (insts : List Instruction) (acc : State × List Record)
    (h : ∀ i ∈ insts, ∃ self, i = Instruction.Other self) : visitInsts acc insts = acc := by
  induction insts generalizing acc with
  | nil => rfl
  | cons i rest ih =>
    obtain ⟨self, rfl⟩ := h _ (List.mem_cons_self _ _)
    have hstep : visitInsts acc (Instruction.Other self :: rest) =
        visitInsts ((visitInst acc.1 (.Other self)).1,
          acc.2 ++ (visitInst acc.1 (.Other self)).2) rest := rfl
    rw [hstep, ih _ (fun j hj => h j (List.mem_cons_of_mem _ hj))]
    simp [visitInst]

theorem visitor_append (st : State) (F G : Function) :
    visitor st (F ++ G) =
      ((visitor (visitor st F).1 G).1, (visitor st F).2 ++ (visitor (visitor st F).1 G).2) := by
  have h1 : visitor st (F ++ G) =
      visitInsts (visitor st F) (G.map BasicBlock.insts).flatten := by
    unfold visitor
    rw [List.foldl_append, visitor_eq_visitInsts G]
  have h2 : visitor (visitor st F).1 G =
      visitInsts ((visitor st F).1, []) (G.map BasicBlock.insts).flatten := by
    unfold visitor
    rw [visitor_eq_visitInsts G]
  rw [h1, h2]
  apply Prod.ext
  · simp only [visitInsts_fst]
  · simp only
    rw [visitInsts_snd]

theorem visitor_other (st : State) (F : Function)
    (h : ∀ b ∈ F, ∀ i ∈ b.insts, ∃ self, i = Instruction.Other self) :
    visitor st F = (st, []) := by
  unfold visitor
  rw [visitor_eq_visitInsts]
  apply visitInsts_other
  intro i hi
  simp only [List.mem_flatten, List.mem_map] at hi
  obtain ⟨l, ⟨b, hb, rfl⟩, hil⟩ := hi
  exact h b hb i hil

/-- C19, as the code refutes it: after `visitor` has run on the function
`x = load a`, its run on the function `u = load b` reports `2 = 2`, while from
the fresh state it reports `1 = 1`. -/
theorem records_depend_on_earlier_function :
    (visitor (visitor State.fresh loadFnF).1 loadFnG).2 = [⟨.Load 21 20, 2, "2", false⟩] ∧
      (visitor State.fresh loadFnG).2 = [⟨.Load 21 20, 1, "1", false⟩] ∧
      (visitor (visitor State.fresh loadFnF).1 loadFnG).2 ≠ (visitor State.fresh loadFnG).2 := by
  refine ⟨by decide, by decide, by decide⟩

/-- C19, amended: the tables and the counter persist across analysed
functions. The run on `G` after the run on `F` continues from the globals `F`
left: its records and final globals are those `G` gets as the tail of the
single function `F ++ G` run from the fresh state. They are the records of `G`
from the fresh state when `F` has no `Load`, no `Store` and no binary
operator. -/
theorem state_persists_across_functions (F G : Function) :
    (visitor State.fresh (F ++ G)).2 =
        (visitor State.fresh F).2 ++ (visitor (visitor State.fresh F).1 G).2 ∧
      (visitor State.fresh (F ++ G)).1 = (visitor (visitor State.fresh F).1 G).1 ∧
      ((∀ b ∈ F, ∀ i ∈ b.insts, ∃ self, i = Instruction.Other self) →
        visitor (visitor State.fresh F).1 G = visitor State.fresh G) := by
  refine ⟨?_, ?_, ?_⟩
  · rw [visitor_append]
  · rw [visitor_append]
  · intro h
    rw [visitor_other State.fresh F h]

/-- Witness of C19 amended: a function of one unhandled instruction, then
`loadFnG`. -/
theorem state_persists_across_functions_witness :
    visitor (visitor State.fresh [⟨100, [.Other 5], []⟩]).1 loadFnG =
      visitor State.fresh loadFnG :=
  (state_persists_across_functions [⟨100, [.Other 5], []⟩] loadFnG).2.2 (by simp)

theorem updateExprTable_flag (st : State) (e : String) :
    (updateExprTable st e).1.2 = (st.exprTable e).isSome := by
  unfold updateExprTable
  cases st.exprTable e <;> rfl

theorem updateExprTable_isSome (st : State) (x e : String) :
    ((updateExprTable st x).2.exprTable e).isSome = true ↔
      (st.exprTable e).isSome = true ∨ e = x := by
  unfold updateExprTable
  cases hx : st.exprTable x with
  | some n =>
    simp only
    constructor
    · exact fun h => Or.inl h
    · rintro (h | rfl)
      · exact h
      · simp [hx]
  | none =>
    simp only
    by_cases hex : e = x
    · subst hex
      simp
    · rw [Function.update_noteq hex]
      simp [hex]

theorem exprHist_step (acc : State × List Record) (i : Instruction) (h : ExprHist acc) :
    ExprHist ((visitInst acc.1 i).1, acc.2 ++ (visitInst acc.1 i).2) := by
  intro e
  cases i with
  | Load self op0 =>
    simp only [visitInst, updateOperandTable_exprTable, List.mem_append, List.mem_singleton]
    rw [h e]
    constructor
    · rintro ⟨r, hr, hb⟩
      exact ⟨r, Or.inl hr, hb⟩
    · rintro ⟨r, hr | rfl, hb⟩
      · exact ⟨r, hr, hb⟩
      · simp [Instruction.isBinaryOp] at hb
  | Store self op0 op1 =>
    simp only [visitInst, updateOperandTable_exprTable, List.mem_append, List.mem_singleton]
    rw [h e]
    constructor
    · rintro ⟨r, hr, hb⟩
      exact ⟨r, Or.inl hr, hb⟩
    · rintro ⟨r, hr | rfl, hb⟩
      · exact ⟨r, hr, hb⟩
      · simp [Instruction.isBinaryOp] at hb
  | BinaryOp self opcode op0 op1 =>
    simp only [visitInst, updateOperandTable_exprTable, List.mem_append, List.mem_singleton]
    rw [updateExprTable_isSome, operandNums_exprTable, h e]
    constructor
    · rintro (⟨r, hr, hb⟩ | rfl)
      · exact ⟨r, Or.inl hr, hb⟩
      · exact ⟨_, Or.inr rfl, rfl, rfl⟩
    · rintro ⟨r, hr | rfl, hb⟩
      · exact Or.inl ⟨r, hr, hb⟩
      · exact Or.inr hb.2.symm
  | Other self =>
    simp only [visitInst, List.append_nil]
    exact h e

theorem exprHist_visitInsts (insts : List Instruction) (acc : State × List Record)
    (h : ExprHist acc) : ExprHist (visitInsts acc insts) := by
  induction insts generalizing acc with
  | nil => exact h
  | cons i rest ih => exact ih _ (exprHist_step acc i h)

theorem exprHist_fresh : ExprHist (State.fresh, []) := by
  intro e
  simp [State.fresh]

theorem exprHist_visitor (fn : Function) : ExprHist (visitor State.fresh fn) := by
  unfold visitor
  rw [visitor_eq_visitInsts]
  exact exprHist_visitInsts _ _ exprHist_fresh

/-- C18, as the code refutes it: in the two-block function `crossBlockFn` the
second block consists of the single instruction `add a, b`, so no instruction
of that block precedes it, and yet its record is marked redundant, because the
first block computed `add a, b`. -/
theorem redundant_across_blocks :
    (crossBlockFn.map BasicBlock.insts) =
        [[.BinaryOp 12 .Add 10 11], [.BinaryOp 13 .Add 10 11]] ∧
      (visitor State.fresh crossBlockFn).2 =
        [⟨.BinaryOp 12 .Add 10 11, 3, "1 add 2", false⟩,
          ⟨.BinaryOp 13 .Add 10 11, 3, "1 add 2", true⟩] := by
  refine ⟨by decide, by decide⟩

/-- C18, amended: redundancy detection spans the whole run, not one block. When
a binary operator is reached after the blocks `before` and the instructions
`preB` of its own block, its record is marked redundant exactly when a binary
operator processed earlier in the run, in its own block or in any earlier
block, produced the same canonical expression string. -/
theorem redundant_iff_earlier_in_run (before : Function) (preB : List Instruction)
    (self : Value) (opcode : BinaryOps) (op0 op1 : Value) :
    ∃ r, (visitInst (visitInsts (visitor State.fresh before) preB).1
          (.BinaryOp self opcode op0 op1)).2 = [r] ∧
      (r.redundant = true ↔
        ∃ r1 ∈ (visitInsts (visitor State.fresh before) preB).2,
          r1.inst.isBinaryOp = true ∧ r1.sourceOrExpr = r.sourceOrExpr) := by
  have h := exprHist_visitInsts preB _ (exprHist_visitor before)
  refine ⟨_, rfl, ?_⟩
  simp only
  rw [updateExprTable_flag, operandNums_exprTable]
  exact h _

/-! ## Value numbering: the canonical expression string -/

theorem digitVal_digitChar (k : Nat) (h : k < 10) : digitVal (Nat.digitChar k) = k := by
  interval_cases k <;> rfl

theorem digitChar_ne (k : Nat) (h : k < 10) : Nat.digitChar k ≠ ' ' ∧ Nat.digitChar k ≠ '-' := by
  interval_cases k <;> decide

theorem decode_toDigitsCore (fuel : Nat) : ∀ (n : Nat) (ds : List Char), n < fuel →
    decode 0 (Nat.toDigitsCore 10 fuel n ds) = decode n ds := by
  induction fuel with
  | zero => intro n ds h; omega
  | succ f ih =>
    intro n ds h
    simp only [Nat.toDigitsCore]
    by_cases h0 : n / 10 = 0
    · rw [if_pos h0]
      have hn : n < 10 := by omega
      simp only [decode, List.foldl_cons, Nat.mul_zero, Nat.zero_add]
      rw [digitVal_digitChar _ (Nat.mod_lt _ (by decide)), Nat.mod_eq_of_lt hn]
    · rw [if_neg h0, ih (n / 10) _ (by omega)]
      simp only [decode, List.foldl_cons]
      rw [digitVal_digitChar _ (Nat.mod_lt _ (by decide)), Nat.div_add_mod]

theorem decode_repr (n : Nat) : decode 0 (Nat.repr n).data = n := by
  unfold Nat.repr Nat.toDigits
  simp only [List.asString]
  rw [decode_toDigitsCore _ _ _ (Nat.lt_succ_self n)]
  rfl

theorem repr_injective (m n : Nat) (h : Nat.repr m = Nat.repr n) : m = n := by
  rw [← decode_repr m, ← decode_repr n, h]

theorem toDigitsCore_chars (fuel : Nat) : ∀ (n : Nat) (ds : List Char) (c : Char),
    c ∈ Nat.toDigitsCore 10 fuel n ds → c ∈ ds ∨ ∃ k, k < 10 ∧ c = Nat.digitChar k := by
  induction fuel with
  | zero => intro n ds c h; exact Or.inl (by simpa [Nat.toDigitsCore] using h)
  | succ f ih =>
    intro n ds c h
    simp only [Nat.toDigitsCore] at h
    by_cases h0 : n / 10 = 0
    · rw [if_pos h0] at h
      rcases List.mem_cons.mp h with rfl | h
      · exact Or.inr ⟨n % 10, Nat.mod_lt _ (by decide), rfl⟩
      · exact Or.inl h
    · rw [if_neg h0] at h
      rcases ih _ _ _ h with h | h
      · rcases List.mem_cons.mp h with rfl | h
        · exact Or.inr ⟨n % 10, Nat.mod_lt _ (by decide), rfl⟩
        · exact Or.inl h
      · exact Or.inr h

theorem repr_chars (n : Nat) (c : Char) (h : c ∈ (Nat.repr n).data) : c ≠ ' ' ∧ c ≠ '-' := by
  unfold Nat.repr Nat.toDigits at h
  simp only [List.asString] at h
  rcases toDigitsCore_chars _ _ _ _ h with h | ⟨k, hk, rfl⟩
  · simp at h
  · exact digitChar_ne k hk

theorem split_at_sep (c : Char) : ∀ (a a1 b b1 : List Char), c ∉ a → c ∉ a1 →
    a ++ c :: b = a1 ++ c :: b1 → a = a1 ∧ b = b1 := by
  intro a
  induction a with
  | nil =>
    intro a1 b b1 _ h1 h
    cases a1 with
    | nil => simpa using h
    | cons x xs =>
      simp only [List.nil_append, List.cons_append, List.cons.injEq] at h
      exact absurd (h.1 ▸ List.mem_cons_self _ _) h1
  | cons y ys ih =>
    intro a1 b b1 h0 h1 h
    cases a1 with
    | nil =>
      simp only [List.nil_append, List.cons_append, List.cons.injEq] at h
      exact absurd (h.1 ▸ List.mem_cons_self _ _) h0
    | cons x xs =>
      simp only [List.cons_append, List.cons.injEq] at h
      obtain ⟨rfl, h⟩ := h
      obtain ⟨rfl, rfl⟩ := ih xs b b1 (fun hm => h0 (List.mem_cons_of_mem _ hm))
        (fun hm => h1 (List.mem_cons_of_mem _ hm)) h
      exact ⟨rfl, rfl⟩

theorem to_string_chars (n : Int) (c : Char) (h : c ∈ (to_string n).data) : c ≠ ' ' := by
  cases n with
  | ofNat m => exact (repr_chars m c h).1
  | negSucc m =>
    have hd : (to_string (Int.negSucc m)).data = '-' :: (Nat.repr (m + 1)).data := rfl
    rw [hd] at h
    rcases List.mem_cons.mp h with rfl | h
    · decide
    · exact (repr_chars _ c h).1

theorem to_string_injective (m n : Int) (h : to_string m = to_string n) : m = n := by
  have hd := congrArg String.data h
  cases m with
  | ofNat a =>
    cases n with
    | ofNat b =>
      have : Nat.repr a = Nat.repr b := h
      rw [repr_injective a b this]
    | negSucc b =>
      have hb : (to_string (Int.negSucc b)).data = '-' :: (Nat.repr (b + 1)).data := rfl
      have ha : (to_string (Int.ofNat a)).data = (Nat.repr a).data := rfl
      rw [hb, ha] at hd
      exact absurd rfl (repr_chars a '-' (hd ▸ List.mem_cons_self _ _)).2
  | negSucc a =>
    have ha : (to_string (Int.negSucc a)).data = '-' :: (Nat.repr (a + 1)).data := rfl
    cases n with
    | ofNat b =>
      have hb : (to_string (Int.ofNat b)).data = (Nat.repr b).data := rfl
      rw [hb, ha] at hd
      exact absurd rfl (repr_chars b '-' (hd ▸ List.mem_cons_self _ _)).2
    | negSucc b =>
      have hb : (to_string (Int.negSucc b)).data = '-' :: (Nat.repr (b + 1)).data := rfl
      rw [hb, ha] at hd
      simp only [List.cons.injEq, true_and] at hd
      have : Nat.repr (a + 1) = Nat.repr (b + 1) := String.ext hd
      have := repr_injective _ _ this
      have hab : a = b := by omega
      rw [hab]

theorem exprString_data (l : Int) (op : String) (r : Int) :
    (exprString l op r).data =
      (to_string l).data ++ ' ' :: (op.data ++ ' ' :: (to_string r).data) := by
  simp [exprString, String.data_append]

theorem exprString_injective (l r l1 r1 : Int) (op op1 : String)
    (hop : ' ' ∉ op.data) (hop1 : ' ' ∉ op1.data)
    (h : exprString l op r = exprString l1 op1 r1) : l = l1 ∧ op = op1 ∧ r = r1 := by
  have hd := congrArg String.data h
  rw [exprString_data, exprString_data] at hd
  obtain ⟨h1, h2⟩ := split_at_sep ' ' _ _ _ _
    (fun hm => to_string_chars l _ hm rfl) (fun hm => to_string_chars l1 _ hm rfl) hd
  obtain ⟨h3, h4⟩ := split_at_sep ' ' _ _ _ _ hop hop1 h2
  exact ⟨to_string_injective _ _ (String.ext h1), String.ext h3,
    to_string_injective _ _ (String.ext h4)⟩

theorem opString_chars (o : BinaryOps) : ' ' ∉ (opString o).data := by
  cases o <;> decide

theorem opString_injective (o o1 : BinaryOps) (ho : handled o = true)
    (h : opString o = opString o1) : o = o1 := by
  cases o <;> cases o1 <;> first | rfl | (exfalso; revert ho h; decide)

/-- The canonical string determines the two numbers and the mnemonic. -/
theorem exprString_opString_injective (l r l1 r1 : Int) (o o1 : BinaryOps)
    (h : exprString l (opString o) r = exprString l1 (opString o1) r1) :
    l = l1 ∧ opString o = opString o1 ∧ r = r1 :=
  exprString_injective l r l1 r1 _ _ (opString_chars o) (opString_chars o1) h

/-! ## Value numbering: where the expressions of the table come from -/

theorem stateAfter_snoc (xs : List Instruction) (x : Instruction) :
    stateAfter (xs ++ [x]) = (visitInst (stateAfter xs) x).1 := by
  simp only [stateAfter, visitInsts_fst, List.foldl_append, List.foldl_cons, List.foldl_nil]

theorem visitInst_exprTable_isSome (st : State) (i : Instruction) (e : String)
    (h : ((visitInst st i).1.exprTable e).isSome = true) :
    (st.exprTable e).isSome = true ∨
      ∃ s o a b, i = Instruction.BinaryOp s o a b ∧
        e = exprString (operandNums st a b).1.1 (opString o) (operandNums st a b).1.2 := by
  cases i with
  | Load self op0 =>
    simp only [visitInst, updateOperandTable_exprTable] at h
    exact Or.inl h
  | Store self op0 op1 =>
    simp only [visitInst, updateOperandTable_exprTable] at h
    exact Or.inl h
  | BinaryOp self opcode op0 op1 =>
    simp only [visitInst, updateOperandTable_exprTable] at h
    rw [updateExprTable_isSome, operandNums_exprTable] at h
    rcases h with h | h
    · exact Or.inl h
    · exact Or.inr ⟨self, opcode, op0, op1, rfl, h⟩
  | Other self => exact Or.inl h

theorem exprOrigin_of_isSome (pre : List Instruction) :
    ∀ e, ((stateAfter pre).exprTable e).isSome = true → ExprOrigin pre e := by
  induction pre using List.reverseRecOn with
  | nil =>
    intro e h
    simp [stateAfter, visitInsts, State.fresh] at h
  | append_singleton xs x ih =>
    intro e h
    rw [stateAfter_snoc] at h
    rcases visitInst_exprTable_isSome _ x e h with h | ⟨s, o, a, b, rfl, he⟩
    · obtain ⟨pre1, s1, o1, a1, b1, mid, hxs, he⟩ := ih e h
      refine ⟨pre1, s1, o1, a1, b1, mid ++ [x], ?_, he⟩
      rw [hxs]
      simp
    · exact ⟨xs, s, o, a, b, [], rfl, he⟩

theorem updateOperandTable_valueNum_le (st : State) (v : Value) (val : Int) :
    st.valueNum ≤ (updateOperandTable st v val).2.valueNum := by
  unfold updateOperandTable
  cases st.operandTable v <;> by_cases h : val > 0 <;> simp [h]

theorem updateExprTable_valueNum_le (st : State) (e : String) :
    st.valueNum ≤ (updateExprTable st e).2.valueNum := by
  unfold updateExprTable
  cases st.exprTable e <;> simp

theorem ExprBounded.mono {st st1 : State} (h : ExprBounded st)
    (ht : st1.exprTable = st.exprTable) (hc : st.valueNum ≤ st1.valueNum) :
    ExprBounded st1 := by
  intro e he
  rw [ht] at he
  obtain ⟨l, o, r, h1, h2, h3⟩ := h e he
  exact ⟨l, o, r, h1, by omega, by omega⟩

theorem operandNums_lt {st : State} (h : Numbered st) (op0 op1 : Value) :
    (operandNums st op0 op1).1.1 < (operandNums st op0 op1).2.valueNum ∧
      (operandNums st op0 op1).1.2 < (operandNums st op0 op1).2.valueNum := by
  obtain ⟨h1, _, h3⟩ := h.lookup op0
  obtain ⟨_, _, h6⟩ := h1.lookup op1
  have hle := updateOperandTable_valueNum_le (updateOperandTable st op0 noVal).2 op1 noVal
  simp only [operandNums]
  exact ⟨by omega, h6⟩

theorem operandNums_valueNum_le (st : State) (op0 op1 : Value) :
    st.valueNum ≤ (operandNums st op0 op1).2.valueNum := by
  have h1 := updateOperandTable_valueNum_le st op0 noVal
  have h2 := updateOperandTable_valueNum_le (updateOperandTable st op0 noVal).2 op1 noVal
  simp only [operandNums]
  omega

theorem ExprBounded.keptByInst {st : State} (h : ExprBounded st) (hn : Numbered st)
    (i : Instruction) : ExprBounded (visitInst st i).1 := by
  cases i with
  | Load self op0 =>
    apply h.mono
    · simp only [ValueNumbering.visitInst, updateOperandTable_exprTable]
    · exact le_trans (updateOperandTable_valueNum_le st op0 noVal)
        (updateOperandTable_valueNum_le _ _ _)
  | Store self op0 op1 =>
    apply h.mono
    · simp only [ValueNumbering.visitInst, updateOperandTable_exprTable]
    · exact le_trans (updateOperandTable_valueNum_le st op0 noVal)
        (updateOperandTable_valueNum_le _ _ _)
  | BinaryOp self opcode op0 op1 =>
    have hle1 := operandNums_valueNum_le st op0 op1
    have hlt := operandNums_lt hn op0 op1
    have hle2 := updateExprTable_valueNum_le (operandNums st op0 op1).2
      (exprString (operandNums st op0 op1).1.1 (opString opcode) (operandNums st op0 op1).1.2)
    have hmid : ExprBounded (updateExprTable (operandNums st op0 op1).2
        (exprString (operandNums st op0 op1).1.1 (opString opcode)
          (operandNums st op0 op1).1.2)).2 := by
      intro e he
      rw [updateExprTable_isSome, operandNums_exprTable] at he
      rcases he with he | rfl
      · obtain ⟨l, o, r, h1, h2, h3⟩ := h e he
        exact ⟨l, o, r, h1, by omega, by omega⟩
      · exact ⟨_, opcode, _, rfl, by omega, by omega⟩
    apply hmid.mono
    · simp only [ValueNumbering.visitInst, updateOperandTable_exprTable]
    · exact updateOperandTable_valueNum_le _ _ _
  | Other self => exact h

theorem exprBounded_stateAfter (pre : List Instruction) : ExprBounded (stateAfter pre) := by
  induction pre using List.reverseRecOn with
  | nil =>
    intro e h
    simp [stateAfter, visitInsts, State.fresh] at h
  | append_singleton xs x ih =>
    rw [stateAfter_snoc]
    exact ih.keptByInst (numbered_stateAfter xs) x

theorem operandNums_unseen (st : State) (op0 op1 : Value)
    (h : st.operandTable op0 = none ∨ st.operandTable op1 = none) :
    st.valueNum ≤ (operandNums st op0 op1).1.1 ∨ st.valueNum ≤ (operandNums st op0 op1).1.2 := by
  cases h0 : st.operandTable op0 with
  | none =>
    left
    simp only [operandNums, updateOperandTable_noVal_none st op0 h0]
    exact le_refl _
  | some n =>
    right
    have h1 : st.operandTable op1 = none := by
      rcases h with h | h
      · rw [h0] at h
        cases h
      · exact h
    simp only [operandNums, updateOperandTable_noVal_some st op0 n h0,
      updateOperandTable_noVal_none st op1 h1]
    exact le_refl _

/-- C20: no false redundancy among the five handled operators. The canonical
string is injective in (left number, operator, right number) over the five
mnemonics, so `1 add 2` and `2 add 1` differ. In a run from the fresh state, a
binary operator of a handled opcode is marked redundant only if an earlier
binary operator of the run had the same opcode and, when it was processed, the
same left and the same right operand number; and it is never marked redundant
when one of its operands has no number yet. -/
theorem no_false_redundancy (pre : List Instruction) (s2 : Value) (opc : BinaryOps)
    (a2 b2 : Value) (hop : handled opc = true) :
    (∀ l r l1 r1 o o1, handled o = true → handled o1 = true →
        exprString l (opString o) r = exprString l1 (opString o1) r1 →
        l = l1 ∧ o = o1 ∧ r = r1) ∧
      exprString 1 (opString .Add) 2 ≠ exprString 2 (opString .Add) 1 ∧
      (∀ r, (visitInst (stateAfter pre) (.BinaryOp s2 opc a2 b2)).2 = [r] →
        r.redundant = true →
        ∃ pre1 s1 a1 b1 mid, pre = pre1 ++ Instruction.BinaryOp s1 opc a1 b1 :: mid ∧
          (operandNums (stateAfter pre1) a1 b1).1 = (operandNums (stateAfter pre) a2 b2).1) ∧
      (((stateAfter pre).operandTable a2 = none ∨ (stateAfter pre).operandTable b2 = none) →
        ∀ r, (visitInst (stateAfter pre) (.BinaryOp s2 opc a2 b2)).2 = [r] →
          r.redundant = false) := by
  have hflag : ∀ r, (visitInst (stateAfter pre) (.BinaryOp s2 opc a2 b2)).2 = [r] →
      r.redundant = ((stateAfter pre).exprTable
        (exprString (operandNums (stateAfter pre) a2 b2).1.1 (opString opc)
          (operandNums (stateAfter pre) a2 b2).1.2)).isSome := by
    intro r hr
    simp only [visitInst, List.cons.injEq, and_true] at hr
    rw [← hr]
    simp only
    rw [updateExprTable_flag, operandNums_exprTable]
  refine ⟨?_, by decide, ?_, ?_⟩
  · intro l r l1 r1 o o1 ho _ h
    obtain ⟨h1, h2, h3⟩ := exprString_opString_injective l r l1 r1 o o1 h
    exact ⟨h1, opString_injective o o1 ho h2, h3⟩
  · intro r hr hred
    rw [hflag r hr] at hred
    obtain ⟨pre1, s1, o1, a1, b1, mid, hpre, he⟩ := exprOrigin_of_isSome pre _ hred
    obtain ⟨h1, h2, h3⟩ := exprString_opString_injective _ _ _ _ _ _ he
    have ho : opc = o1 := opString_injective opc o1 hop h2
    subst ho
    exact ⟨pre1, s1, a1, b1, mid, hpre, Prod.ext h1.symm h3.symm⟩
  · intro hnew r hr
    rw [hflag r hr]
    cases hs : ((stateAfter pre).exprTable
        (exprString (operandNums (stateAfter pre) a2 b2).1.1 (opString opc)
          (operandNums (stateAfter pre) a2 b2).1.2)).isSome with
    | false => rfl
    | true =>
      exfalso
      obtain ⟨l, o, r1, he, hl, hr1⟩ := exprBounded_stateAfter pre _ hs
      obtain ⟨h1, _, h3⟩ := exprString_opString_injective _ _ _ _ _ _ he
      rcases operandNums_unseen (stateAfter pre) a2 b2 hnew with h | h
      · omega
      · omega

/-- Witness of C20: after `x = load a; y = add x, x; store y into q`, the
instruction `z = add x, x` is marked redundant, and `y = add x, x` is the
earlier operator with the same opcode and operand numbers. -/
theorem no_false_redundancy_witness :
    ∃ pre1 s1 a1 b1 mid,
      [Instruction.Load 11 10, Instruction.BinaryOp 12 .Add 11 11, Instruction.Store 20 12 30] =
        pre1 ++ Instruction.BinaryOp s1 .Add a1 b1 :: mid ∧
      (operandNums (stateAfter pre1) a1 b1).1 =
        (operandNums
          (stateAfter [Instruction.Load 11 10, Instruction.BinaryOp 12 .Add 11 11,
            Instruction.Store 20 12 30]) 11 11).1 :=
  (no_false_redundancy
    [Instruction.Load 11 10, Instruction.BinaryOp 12 .Add 11 11, Instruction.Store 20 12 30]
    13 .Add 11 11 rfl).2.2.1 ⟨.BinaryOp 13 .Add 11 11, 2, "1 add 1", true⟩ (by decide) rfl

end ValueNumbering
